import Mathlib

/-!
Verification of the storage core of a miniature SQL database (my-sqldb-rs).

The development shallowly embeds the Rust storage layer:
  * `src/storage/engine.rs`  — the ordered KV `Engine` trait, in particular the
    default `scan_prefix` implementation;
  * `src/storage/memory.rs`  — the `BTreeMap`-backed reference engine, modelled
    as a strictly sorted association list over byte-string keys;
  * `src/storage/mvcc.rs`    — the MVCC transaction manager (`begin`, `get`,
    `set`, `delete`, `commit`, `rollback`, visibility, conflict detection);
  * `src/storage/disk.rs`    — the Bitcask-style `DiskEngine` (append-only log,
    keydir, `build_keydir` recovery, `compact`).

Machine bytes are `Nat`s (< 256 where it matters), `u64`/`u32`/`i32` values are
`Nat`s with explicit truncation where the Rust types wrap.  Fallible paths
return `Except Err`; a panic of `BTreeMap::range` on an inverted range (and the
equivalent debug-mode overflow panic of `*it += 1`) is modelled by
`Except.error Err.Internal`.

The order-preserving key codec lives in the repository module
`storage::keycode`, whose source file is not part of the provided tree; its
encoding is modelled from the spec (one discriminant byte in declaration
order, `0x00`-escaped and `0x00 0x00`-terminated byte strings, big-endian
`u64`).  The `bincode` value serialization (an external crate) is likewise
modelled from the spec: a one-byte tag for `Option`, little-endian fixed-width
`u64` integers and lengths.
-/

/-- Byte strings are lists of naturals; real bytes are `< 256`. -/
abbrev Bytes := List Nat

/-- Strict lexicographic order on byte strings, matching Rust's `Ord` on
`Vec<u8>`: compare element-wise, a strict prefix is smaller. -/
def blt : Bytes → Bytes → Bool
  | _, [] => false
  | [], _ :: _ => true
  | a :: as, b :: bs => a < b || (a == b && blt as bs)

/-- Non-strict lexicographic order on byte strings. -/
def ble (x y : Bytes) : Bool := !(blt y x)

/-- Big-endian digits of `v` in `len` bytes (truncates `v` modulo `256 ^ len`,
as a Rust fixed-width integer would). -/
def beBytes : Nat → Nat → Bytes
  | 0, _ => []
  | len + 1, v => (v / 256 ^ len) % 256 :: beBytes len (v % 256 ^ len)

/-- Read a big-endian byte string as a natural number. -/
def fromBE (b : Bytes) : Nat := b.foldl (fun acc x => acc * 256 + x) 0

/-- Little-endian digits of `v` in `len` bytes. -/
def leBytes : Nat → Nat → Bytes
  | 0, _ => []
  | len + 1, v => v % 256 :: leBytes len (v / 256)

/-- Read a little-endian byte string as a natural number. -/
def fromLE : Bytes → Nat
  | [] => 0
  | b :: t => b + 256 * fromLE t

/-- The model of the single `Error` sum type of `src/error.rs`, collapsed to
the two classes the storage layer produces: a write-write conflict and
everything internal (I/O, decode failures, and — in this model — the
`BTreeMap::range` panic on an inverted range). -/
inductive Err where
  | WriteConflict
  | Internal
deriving DecidableEq, Repr

/-- An ordered map is modelled as an association list strictly sorted by
`blt` on the keys (the shape of Rust's `BTreeMap` iteration). -/
def sortedKeys {α : Type} (l : List (Bytes × α)) : Prop :=
  List.Pairwise (fun a b => blt a.1 b.1 = true) l

instance {α : Type} (l : List (Bytes × α)) : Decidable (sortedKeys l) := by
  unfold sortedKeys; infer_instance

/-- `BTreeMap::insert`: replace the binding of `k` or insert it at its sorted
position. -/
def storeInsert {α : Type} (k : Bytes) (v : α) : List (Bytes × α) → List (Bytes × α)
  | [] => [(k, v)]
  | (k', v') :: rest =>
    if blt k k' then (k, v) :: (k', v') :: rest
    else if k = k' then (k, v) :: rest
    else (k', v') :: storeInsert k v rest

/-- `BTreeMap::remove`: drop the binding of `k` (a no-op when absent). -/
def storeErase {α : Type} (k : Bytes) (l : List (Bytes × α)) : List (Bytes × α) :=
  l.filter (fun kv => kv.1 ≠ k)

/-- `BTreeMap::get`. -/
def storeGet {α : Type} (k : Bytes) (l : List (Bytes × α)) : Option α :=
  (l.find? (fun kv => kv.1 = k)).map (fun kv => kv.2)

/-- One end of a Rust range bound over byte-string keys. -/
inductive Bnd where
  | incl (b : Bytes)
  | excl (b : Bytes)
  | unb
deriving DecidableEq, Repr

/-- Does key `k` satisfy the lower bound? -/
def lowOk : Bnd → Bytes → Bool
  | .incl b, k => ble b k
  | .excl b, k => blt b k
  | .unb, _ => true

/-- Does key `k` satisfy the upper bound? -/
def highOk : Bnd → Bytes → Bool
  | .incl b, k => ble k b
  | .excl b, k => blt k b
  | .unb, _ => true

/-- `BTreeMap::range` panics when the start bound exceeds the end bound, or
when both are exclusive on the same key; `rangeValid` is the complement of the
panic condition. -/
def rangeValid : Bnd → Bnd → Bool
  | .incl a, .incl b => ble a b
  | .incl a, .excl b => ble a b
  | .excl a, .incl b => ble a b
  | .excl a, .excl b => blt a b
  | _, _ => true

/-- The in-memory engine of `src/storage/memory.rs`: a `BTreeMap<Vec<u8>,
Vec<u8>>`, modelled as a sorted association list. -/
abbrev Store := List (Bytes × Bytes)

/-- The pairs of a sorted store falling inside the range, in ascending key
order (`MemoryEngine::scan` collected into a list). -/
def storeScan (lo hi : Bnd) (s : Store) : List (Bytes × Bytes) :=
  s.filter (fun kv => lowOk lo kv.1 && highOk hi kv.1)

/-- `Engine::scan` with the panic of `BTreeMap::range` on an invalid range
modelled as an internal error. -/
def engScan (lo hi : Bnd) (s : Store) : Except Err (List (Bytes × Bytes)) :=
  if rangeValid lo hi then .ok (storeScan lo hi s) else .error .Internal

/-- `bound_prefix.iter_mut().last()` followed by `*it += 1` in
`Engine::scan_prefix` (`src/storage/engine.rs:32-41`): increment the final
byte.  The Rust `u8` addition wraps in release mode (and panics in debug
mode when the byte is `0xff`); the wrap is the `% 256`. -/
def incLastByte : Bytes → Bytes
  | [] => []
  | [b] => [(b + 1) % 256]
  | b :: rest => b :: incLastByte rest

/-- The default `Engine::scan_prefix`: scan from `prefix` included to the
prefix with its final byte incremented, excluded. -/
def engScanPfx (p : Bytes) (s : Store) : Except Err (List (Bytes × Bytes)) :=
  engScan (.incl p) (.excl (incLastByte p)) s

/-! ### The order-preserving key codec (`storage::keycode`)

Modelled from the spec: the source file of the `keycode` module is not in the
provided tree, only its callers in `mvcc.rs`.  Per the spec the codec writes a
one-byte discriminant in enum declaration order, escapes `0x00` inside byte
strings as `0x00 0xff` and terminates them with `0x00 0x00`, and writes `u64`
fields in big-endian order. -/

/-- Escape a single byte of a raw key. -/
def escByte (b : Nat) : Bytes := if b = 0 then [0, 255] else [b]

/-- Escape a raw key byte-by-byte. -/
def escStr : Bytes → Bytes
  | [] => []
  | b :: t => escByte b ++ escStr t

/-- The self-delimiting string encoding: escaped bytes plus the `0x00 0x00`
terminator. -/
def encStr (s : Bytes) : Bytes := escStr s ++ [0, 0]

/-- Big-endian `u64`. -/
def u64be (v : Nat) : Bytes := beBytes 8 v

/-- `u64::MAX`. -/
def u64MAX : Nat := 18446744073709551615

/-- The `MvccKey` enum of `src/storage/mvcc.rs:63-68`. -/
inductive MvccKey where
  | NextVersion
  | TxnActive (v : Nat)
  | TxnWrite (v : Nat) (key : Bytes)
  | Version (key : Bytes) (v : Nat)
deriving DecidableEq, Repr

/-- `MvccKey::encode` through the spec-modelled codec. -/
def MvccKey.encode : MvccKey → Bytes
  | .NextVersion => [0]
  | .TxnActive v => 1 :: u64be v
  | .TxnWrite v k => 2 :: (u64be v ++ encStr k)
  | .Version k v => 3 :: (encStr k ++ u64be v)

/-- The `MvccKeyPrefix` enum of `src/storage/mvcc.rs:85-90`. -/
inductive MvccKeyPfx where
  | NextVersion
  | TxnActive
  | TxnWrite (v : Nat)
  | Version (k : Bytes)
deriving DecidableEq, Repr

/-- `MvccKeyPrefix::encode` through the spec-modelled codec. -/
def MvccKeyPfx.encode : MvccKeyPfx → Bytes
  | .NextVersion => [0]
  | .TxnActive => [1]
  | .TxnWrite v => 2 :: u64be v
  | .Version k => 3 :: encStr k

/-- Decode an escaped byte string: returns the raw key and the remaining
input.  Inverse of `encStr`. -/
def decodeStr : Bytes → Option (Bytes × Bytes)
  | [] => none
  | b :: rest =>
    if b = 0 then
      match rest with
      | [] => none
      | c :: r =>
        if c = 0 then some ([], r)
        else if c = 255 then (decodeStr r).map (fun p => (0 :: p.1, p.2))
        else none
    else (decodeStr rest).map (fun p => (b :: p.1, p.2))

/-- Decode a big-endian `u64` field: the first eight bytes plus the rest. -/
def decodeU64 (b : Bytes) : Option (Nat × Bytes) :=
  if b.length < 8 then none else some (fromBE (b.take 8), b.drop 8)

/-- `MvccKey::decode` through the spec-modelled codec: the discriminant byte
then the fields, with no trailing input allowed. -/
def decodeMvccKey : Bytes → Option MvccKey
  | 0 :: rest => if rest = [] then some .NextVersion else none
  | 1 :: rest =>
    match decodeU64 rest with
    | some (v, []) => some (.TxnActive v)
    | _ => none
  | 2 :: rest =>
    match decodeU64 rest with
    | some (v, r) =>
      match decodeStr r with
      | some (k, []) => some (.TxnWrite v k)
      | _ => none
    | none => none
  | 3 :: rest =>
    match decodeStr rest with
    | some (k, r) =>
      match decodeU64 r with
      | some (v, []) => some (.Version k v)
      | _ => none
    | none => none
  | _ => none

/-! ### The `bincode` value serialization

Modelled from the spec: `bincode` is an external crate.  `u64` values are
eight little-endian bytes; an optional payload is a one-byte tag (`0` for
absent, `1` for present) followed for `Some` by the `u64` length and the
payload bytes. -/

/-- Serialize a `u64` value. -/
def serU64 (v : Nat) : Bytes := leBytes 8 v

/-- Deserialize a `u64` value. -/
def deserU64 (b : Bytes) : Option Nat :=
  if b.length = 8 then some (fromLE b) else none

/-- Serialize an `Option<Vec<u8>>` payload. -/
def serOpt : Option Bytes → Bytes
  | none => [0]
  | some v => 1 :: (serU64 v.length ++ v)

/-- Deserialize an `Option<Vec<u8>>` payload. -/
def deserOpt : Bytes → Option (Option Bytes)
  | 0 :: rest => if rest = [] then some none else none
  | 1 :: rest =>
    match deserU64 (rest.take 8) with
    | some n => if (rest.drop 8).length = n then some (some (rest.drop 8)) else none
    | none => none
  | _ => none

/-! ### The MVCC transaction manager (`src/storage/mvcc.rs`) -/

/-- `TransactionState` (`src/storage/mvcc.rs:44-50`): the transaction's own
version and the set of versions in flight at begin time. -/
structure TransactionState where
  version : Nat
  active_versions : List Nat
deriving DecidableEq, Repr

/-- `TransactionState::is_visible` (`src/storage/mvcc.rs:53-59`). -/
def TransactionState.isVisible (st : TransactionState) (v : Nat) : Bool :=
  if st.active_versions.contains v then false else decide (v ≤ st.version)

/-- `HashSet::iter().min()` over the active set. -/
def minL : List Nat → Option Nat
  | [] => none
  | a :: as =>
    match minL as with
    | none => some a
    | some m => some (min a m)

/-- The loop of `MvccTransaction::scan_active`: decode each scanned key as a
`TxnActive` marker, failing on anything else. -/
def collectActive : List (Bytes × Bytes) → Except Err (List Nat)
  | [] => .ok []
  | (k, _) :: rest =>
    match decodeMvccKey k with
    | some (.TxnActive v) =>
      match collectActive rest with
      | .ok r => .ok (v :: r)
      | .error e => .error e
    | _ => .error .Internal

/-- `MvccTransaction::begin` (`src/storage/mvcc.rs:100-127`): read
`NextVersion` (default 1), persist `NextVersion + 1`, snapshot the active set,
then write the own `TxnActive` marker. -/
def mvccBegin (eng : Store) : Except Err (TransactionState × Store) := do
  let nextVersion ←
    match storeGet MvccKey.NextVersion.encode eng with
    | some val =>
      match deserU64 val with
      | some n => Except.ok n
      | none => Except.error Err.Internal
    | none => Except.ok 1
  let eng1 := storeInsert MvccKey.NextVersion.encode (serU64 (nextVersion + 1)) eng
  let scanned ← engScanPfx MvccKeyPfx.TxnActive.encode eng1
  let active ← collectActive scanned
  let eng2 := storeInsert (MvccKey.TxnActive nextVersion).encode [] eng1
  .ok (⟨nextVersion, active⟩, eng2)

/-- `MvccTransaction::write_inner` (`src/storage/mvcc.rs:275-328`): conflict
detection over `Version(key, lo) ..= Version(key, u64::MAX)` followed by the
journal and data writes. -/
def writeInner (st : TransactionState) (key : Bytes) (value : Option Bytes)
    (eng : Store) : Except Err Store := do
  let lo :=
    match minL st.active_versions with
    | some m => m
    | none => st.version + 1
  let fromK := (MvccKey.Version key lo).encode
  let toK := (MvccKey.Version key u64MAX).encode
  let scanned ← engScan (.incl fromK) (.incl toK) eng
  match scanned.getLast? with
  | some kv =>
    match decodeMvccKey kv.1 with
    | some (.Version _ v) =>
      if !(st.isVisible v) then Except.error Err.WriteConflict else Except.ok ()
    | _ => Except.error Err.Internal
  | none => Except.ok ()
  let eng1 := storeInsert (MvccKey.TxnWrite st.version key).encode [] eng
  let eng2 := storeInsert (MvccKey.Version key st.version).encode (serOpt value) eng1
  .ok eng2

/-- `MvccTransaction::set`. -/
def mvccSet (st : TransactionState) (key value : Bytes) (eng : Store) :
    Except Err Store :=
  writeInner st key (some value) eng

/-- `MvccTransaction::delete`. -/
def mvccDelete (st : TransactionState) (key : Bytes) (eng : Store) :
    Except Err Store :=
  writeInner st key none eng

/-- The read loop of `MvccTransaction::get`: walk the scanned range newest
first, return the decoded payload of the first visible version. -/
def mvccGetLoop (st : TransactionState) : List (Bytes × Bytes) → Except Err (Option Bytes)
  | [] => .ok none
  | (k, val) :: rest =>
    match decodeMvccKey k with
    | some (.Version _ v) =>
      if st.isVisible v then
        match deserOpt val with
        | some p => .ok p
        | none => .error .Internal
      else mvccGetLoop st rest
    | _ => .error .Internal

/-- `MvccTransaction::get` (`src/storage/mvcc.rs:191-216`): scan
`Version(key, 0) ..= Version(key, self.version)` and read in reverse. -/
def mvccGet (st : TransactionState) (key : Bytes) (eng : Store) :
    Except Err (Option Bytes) := do
  let fromK := (MvccKey.Version key 0).encode
  let toK := (MvccKey.Version key st.version).encode
  let scanned ← engScan (.incl fromK) (.incl toK) eng
  mvccGetLoop st scanned.reverse

/-- `MvccTransaction::commit` (`src/storage/mvcc.rs:129-148`): collect the
`TxnWrite` journal keys, delete them, then delete the `TxnActive` marker. -/
def mvccCommit (st : TransactionState) (eng : Store) : Except Err Store := do
  let scanned ← engScanPfx (MvccKeyPfx.TxnWrite st.version).encode eng
  let deleteKeys := scanned.map (fun kv => kv.1)
  let eng1 := deleteKeys.foldl (fun e k => storeErase k e) eng
  .ok (storeErase (MvccKey.TxnActive st.version).encode eng1)

/-- The collection loop of `MvccTransaction::rollback`: for every journal key
append the corresponding `Version` key and the journal key itself. -/
def rollbackKeys (st : TransactionState) : List (Bytes × Bytes) → Except Err (List Bytes)
  | [] => .ok []
  | (k, _) :: rest =>
    match decodeMvccKey k with
    | some (.TxnWrite _ rawKey) =>
      match rollbackKeys st rest with
      | .ok r => .ok ((MvccKey.Version rawKey st.version).encode :: k :: r)
      | .error e => .error e
    | _ => .error .Internal

/-- `MvccTransaction::rollback` (`src/storage/mvcc.rs:150-181`). -/
def mvccRollback (st : TransactionState) (eng : Store) : Except Err Store := do
  let scanned ← engScanPfx (MvccKeyPfx.TxnWrite st.version).encode eng
  let deleteKeys ← rollbackKeys st scanned
  let eng1 := deleteKeys.foldl (fun e k => storeErase k e) eng
  .ok (storeErase (MvccKey.TxnActive st.version).encode eng1)

/-! ### The disk engine (`src/storage/disk.rs`) -/

/-- `u32` big-endian. -/
def u32be (n : Nat) : Bytes := beBytes 4 n

/-- One on-disk log record (`Log::write_entry`): `key_len: u32 BE`,
`value_len: i32 BE` (`-1`, i.e. `0xffffffff`, for a tombstone), the key bytes,
then the value bytes when present. -/
def encodeEntry (k : Bytes) (v : Option Bytes) : Bytes :=
  u32be k.length ++
    (match v with
     | some val => u32be val.length
     | none => [255, 255, 255, 255]) ++
    k ++
    (match v with
     | some val => val
     | none => [])

/-- The keydir: raw key to `(value_offset, value_len)`, kept sorted. -/
abbrev KeyDir := List (Bytes × (Nat × Nat))

/-- The `DiskEngine`: the in-memory keydir plus the log file contents. -/
structure DiskEngine where
  keydir : KeyDir
  log : Bytes
deriving DecidableEq, Repr

/-- A fresh, empty disk engine (a just-created log file). -/
def emptyDisk : DiskEngine := ⟨[], []⟩

/-- `DiskEngine::set` (`src/storage/disk.rs:79-90`): append the record, then
point the keydir at the value region `(offset + size - val_size, val_size)`. -/
def diskSet (e : DiskEngine) (k v : Bytes) : DiskEngine :=
  let off := e.log.length
  let size := 8 + k.length + v.length
  { log := e.log ++ encodeEntry k (some v)
    keydir := storeInsert k (off + size - v.length, v.length) e.keydir }

/-- `DiskEngine::delete` (`src/storage/disk.rs:102-108`): append a tombstone
and drop the keydir entry. -/
def diskDelete (e : DiskEngine) (k : Bytes) : DiskEngine :=
  { log := e.log ++ encodeEntry k none
    keydir := storeErase k e.keydir }

/-- Apply a sequence of `set` (payload `some v`) and `delete` (payload `none`)
operations to a disk engine. -/
def applyOps (e : DiskEngine) : List (Bytes × Option Bytes) → DiskEngine
  | [] => e
  | (k, some v) :: rest => applyOps (diskSet e k v) rest
  | (k, none) :: rest => applyOps (diskDelete e k) rest

/-- `Log::read_value`: the `size` bytes at `offset`, an error past
end-of-file. -/
def readValue (log : Bytes) (off size : Nat) : Except Err Bytes :=
  if off + size ≤ log.length then .ok ((log.drop off).take size) else .error .Internal

/-- The replay loop of `Log::build_keydir` (`src/storage/disk.rs:145-175`).
`read_entry` reads the two header words and the key (a short read is an
error); a `value_len` of `-1` (raw `0xffffffff`) removes the key, anything
else inserts `(offset + 8 + key_len, value_len as u32)` and skips
`value_len as u64` (sign-extended) value bytes. -/
def buildKeydirAux (log : Bytes) (off : Nat) (kd : KeyDir) : Except Err KeyDir :=
  if h : log.length ≤ off then .ok kd
  else
    let rest := log.drop off
    let ks := fromBE (rest.take 4)
    let vszRaw := fromBE ((rest.drop 4).take 4)
    if hshort : rest.length < 8 + ks then .error .Internal
    else
      let key := (rest.drop 8).take ks
      if vszRaw = 4294967295 then
        buildKeydirAux log (off + 8 + ks) (storeErase key kd)
      else
        buildKeydirAux log
          (off + 8 + ks + (if vszRaw < 2147483648 then vszRaw else vszRaw + 18446744069414584320))
          (storeInsert key (off + 8 + ks, vszRaw) kd)
termination_by log.length - off
decreasing_by
  all_goals
    simp only [not_le] at h
    omega

/-- `Log::build_keydir`: replay the log from offset 0 into an empty keydir. -/
def buildKeydir (log : Bytes) : Except Err KeyDir := buildKeydirAux log 0 []

/-- Entry-level replay of a log: the keydir reached by processing the listed
records in order starting at byte offset `off`. -/
def replay (off : Nat) (kd : KeyDir) : List (Bytes × Option Bytes) → KeyDir
  | [] => kd
  | (k, none) :: rest => replay (off + 8 + k.length) (storeErase k kd) rest
  | (k, some v) :: rest =>
    replay (off + 8 + k.length + v.length)
      (storeInsert k (off + 8 + k.length, v.length) kd) rest

/-- Concatenate the records of an entry list into log bytes. -/
def logOf : List (Bytes × Option Bytes) → Bytes
  | [] => []
  | (k, v) :: rest => encodeEntry k v ++ logOf rest

/-- The rewrite loop of `DiskEngine::compact` (`src/storage/disk.rs:43-73`):
for each live keydir entry read the value from the old log, append a fresh
record to the new log, and record
`(new_offset + new_size - value_size, value_size)` in the new keydir. -/
def compactAux (log : Bytes) : KeyDir → Bytes → KeyDir → Except Err (Bytes × KeyDir)
  | [], newLog, newKd => .ok (newLog, newKd)
  | (k, (off, size)) :: rest, newLog, newKd =>
    match readValue log off size with
    | .ok v =>
      compactAux log rest (newLog ++ encodeEntry k (some v))
        (storeInsert k (newLog.length + (8 + k.length + v.length) - size, size) newKd)
    | .error e => .error e

/-- `DiskEngine::compact`: rewrite the live entries into a fresh log and swap
in the new log and keydir. -/
def compact (e : DiskEngine) : Except Err DiskEngine :=
  match compactAux e.log e.keydir [] [] with
  | .ok (newLog, newKd) => .ok ⟨newKd, newLog⟩
  | .error err => .error err

/-- A full-range `DiskEngine::scan` collected into a list: every keydir entry
with its value read from the log. -/
def scanAllAux (log : Bytes) : KeyDir → Except Err (List (Bytes × Bytes))
  | [] => .ok []
  | (k, (off, size)) :: rest =>
    match readValue log off size with
    | .ok v =>
      match scanAllAux log rest with
      | .ok r => .ok ((k, v) :: r)
      | .error e => .error e
    | .error e => .error e

/-- A full-range scan of a disk engine. -/
def scanAll (e : DiskEngine) : Except Err (List (Bytes × Bytes)) :=
  scanAllAux e.log e.keydir

/-! ### Derived notions used by the claim statements -/

/-- The version bound `lo` of the write-conflict scan of `write_inner`: the
minimum of the active set, or `version + 1` when the set is empty. -/
def confLo (st : TransactionState) : Nat :=
  match minL st.active_versions with
  | some m => m
  | none => st.version + 1

/-- The stored entries whose key decodes to `Version(key, w)` with `w` visible
to `st`, in store order. -/
def visEntries (st : TransactionState) (key : Bytes) (eng : Store) : Store :=
  eng.filter (fun kv =>
    match decodeMvccKey kv.1 with
    | some (.Version k w) => decide (k = key) && st.isVisible w
    | _ => false)

/-- The stored entries whose key decodes to `Version(key, w)` with
`confLo st ≤ w`: the candidates inspected by the write-conflict check. -/
def confEntries (st : TransactionState) (key : Bytes) (eng : Store) : Store :=
  eng.filter (fun kv =>
    match decodeMvccKey kv.1 with
    | some (.Version k w) => decide (k = key) && decide (confLo st ≤ w)
    | _ => false)

/-- The version of a stored entry whose key decodes to a `Version` key
(`0` for anything else). -/
def verOf (kv : Bytes × Bytes) : Nat :=
  match decodeMvccKey kv.1 with
  | some (.Version _ w) => w
  | _ => 0

/-- The decoded `TxnActive` versions present in a store, in store order. -/
def activeOf (eng : Store) : List Nat :=
  eng.filterMap (fun kv =>
    match decodeMvccKey kv.1 with
    | some (.TxnActive v) => some v
    | _ => none)

/-- Is the entry a `Version` record whose version is visible to `st`?  (The
read loop of `get` ignores the raw key, which the scan range already fixes.) -/
def visB (st : TransactionState) (kv : Bytes × Bytes) : Bool :=
  match decodeMvccKey kv.1 with
  | some (.Version _ w) => st.isVisible w
  | _ => false

/-- The version `begin` allocates on a store: the stored `NextVersion` value,
defaulting to 1 when absent. -/
def nextVerOf (eng : Store) : Nat :=
  match storeGet MvccKey.NextVersion.encode eng with
  | some val => (deserU64 val).getD 1
  | none => 1

/-- Well-formedness of a single MVCC store entry: the key is made of real
bytes and decodes to an `MvccKey`, and when it is a `Version` key the payload
deserializes. -/
def wfEntry (kv : Bytes × Bytes) : Bool :=
  kv.1.all (fun b => decide (b < 256)) && (decodeMvccKey kv.1).isSome &&
    (match decodeMvccKey kv.1 with
     | some (.Version _ _) => (deserOpt kv.2).isSome
     | _ => true)

/-- Well-formedness of an MVCC store: every entry is well formed. -/
def WfStore (eng : Store) : Prop :=
  ∀ kv ∈ eng, wfEntry kv = true

instance (eng : Store) : Decidable (WfStore eng) := by
  unfold WfStore; infer_instance

/-- The result the spec's words predict for `scan_prefix` on an all-`0xff`
prefix: every stored pair from the prefix to the end of the key space. -/
def specScanToEnd (p : Bytes) (s : Store) : List (Bytes × Bytes) :=
  s.filter (fun kv => ble p kv.1)

/-- The keydir positions of a record list laid out at byte offset `off`, in
list order: each `set` contributes `(off + 8 + key_len, value_len)`, a
tombstone contributes nothing.  Used to state what `compact` builds. -/
def liveKd (off : Nat) : List (Bytes × Option Bytes) → KeyDir
  | [] => []
  | (k, some v) :: rest =>
    (k, (off + 8 + k.length, v.length)) :: liveKd (off + 8 + k.length + v.length) rest
  | (k, none) :: rest => liveKd (off + 8 + k.length) rest

/-! ## Lemmas about the lexicographic byte order -/

theorem blt_irrefl (a : Bytes) : blt a a = false := by
  induction a with
  | nil => rfl
  | cons x xs ih => simp [blt, ih]

theorem blt_trans {a b c : Bytes} (h1 : blt a b = true) (h2 : blt b c = true) :
    blt a c = true := by
  induction a generalizing b c with
  | nil =>
    cases c with
    | nil => cases b <;> simp [blt] at h1 h2
    | cons y ys => simp [blt]
  | cons x xs ih =>
    cases b with
    | nil => simp [blt] at h1
    | cons y ys =>
      cases c with
      | nil => simp [blt] at h2
      | cons z zs =>
        simp only [blt, Bool.or_eq_true, Bool.and_eq_true, beq_iff_eq,
          decide_eq_true_eq] at h1 h2 ⊢
        rcases h1 with h1 | ⟨rfl, h1⟩
        · rcases h2 with h2 | ⟨rfl, h2⟩
          · exact Or.inl (Nat.lt_trans h1 h2)
          · exact Or.inl h1
        · rcases h2 with h2 | ⟨rfl, h2⟩
          · exact Or.inl h2
          · exact Or.inr ⟨rfl, ih h1 h2⟩

theorem blt_asymm {a b : Bytes} (h : blt a b = true) : blt b a = false := by
  by_contra hc
  have hba : blt b a = true := by
    cases hh : blt b a with
    | false => exact absurd hh hc
    | true => rfl
  have := blt_trans h hba
  rw [blt_irrefl] at this
  exact Bool.false_ne_true this

theorem blt_conn {a b : Bytes} (h : a ≠ b) : blt a b = true ∨ blt b a = true := by
  induction a generalizing b with
  | nil =>
    cases b with
    | nil => exact absurd rfl h
    | cons y ys => exact Or.inl (by simp [blt])
  | cons x xs ih =>
    cases b with
    | nil => exact Or.inr (by simp [blt])
    | cons y ys =>
      by_cases hxy : x = y
      · subst hxy
        have hne : xs ≠ ys := fun hh => h (by rw [hh])
        rcases ih hne with h1 | h1
        · exact Or.inl (by simp [blt, h1])
        · exact Or.inr (by simp [blt, h1])
      · rcases Nat.lt_or_ge x y with h1 | h1
        · exact Or.inl (by simp [blt, h1])
        · have h2 : y < x := Nat.lt_of_le_of_ne h1 (fun hh => hxy hh.symm)
          exact Or.inr (by simp [blt, h2])

theorem ble_iff_not_blt {a b : Bytes} : ble a b = true ↔ blt b a = false := by
  unfold ble
  cases blt b a <;> simp

theorem blt_append {a a' : Bytes} (h : a.length = a'.length) (x y : Bytes) :
    blt (a ++ x) (a' ++ y) = if a = a' then blt x y else blt a a' := by
  induction a generalizing a' with
  | nil =>
    cases a' with
    | nil => simp
    | cons z zs => simp at h
  | cons u us ih =>
    cases a' with
    | nil => simp at h
    | cons z zs =>
      simp only [List.length_cons, Nat.succ_inj] at h
      by_cases huz : u = z
      · subst huz
        have hrec := ih h
        by_cases he : us = zs
        · subst he
          simp [blt, hrec]
        · have hne : (u :: us) ≠ (u :: zs) := by simp [he]
          simp [blt, hrec, he, hne]
      · have hne : (u :: us) ≠ (z :: zs) := by simp [huz]
        have hb : (u == z) = false := by simp [huz]
        simp only [List.cons_append, blt, hne, if_false, hb, Bool.false_and,
          Bool.or_false]

theorem blt_nopfx {s s' : Bytes} (h1 : ∀ t, s' ≠ s ++ t) (h2 : ∀ t, s ≠ s' ++ t)
    (x y : Bytes) : blt (s ++ x) (s' ++ y) = blt s s' := by
  induction s generalizing s' with
  | nil => exact absurd (by simp) (h1 s')
  | cons u us ih =>
    cases s' with
    | nil => exact absurd (by simp) (h2 (u :: us))
    | cons z zs =>
      by_cases huz : u = z
      · subst huz
        have h1' : ∀ t, zs ≠ us ++ t := fun t ht => h1 t (by simp [ht])
        have h2' : ∀ t, us ≠ zs ++ t := fun t ht => h2 t (by simp [ht])
        simp [blt, ih h1' h2']
      · have hb : (u == z) = false := by simp [huz]
        simp only [List.cons_append, blt, hb, Bool.false_and, Bool.or_false]

/-! ## Lemmas about fixed-width integer encodings -/

theorem beBytes_length (len v : Nat) : (beBytes len v).length = len := by
  induction len generalizing v with
  | zero => rfl
  | succ n ih => simp [beBytes, ih]

theorem beBytes_bytes (len v : Nat) : ∀ b ∈ beBytes len v, b < 256 := by
  induction len generalizing v with
  | zero => intro b hb; simp [beBytes] at hb
  | succ n ih =>
    intro b hb
    simp only [beBytes, List.mem_cons] at hb
    rcases hb with rfl | hb
    · exact Nat.mod_lt _ (by norm_num)
    · exact ih _ b hb

theorem beBytes_blt {len a v : Nat} (ha : a < 256 ^ len) (hv : v < 256 ^ len) :
    blt (beBytes len a) (beBytes len v) = decide (a < v) := by
  induction len generalizing a v with
  | zero =>
    simp only [Nat.pow_zero, Nat.lt_one_iff] at ha hv
    subst ha; subst hv
    simp [beBytes, blt]
  | succ n ih =>
    have hha : a / 256 ^ n < 256 := by
      have h1 : a < 256 ^ n * 256 := by
        calc a < 256 ^ (n + 1) := ha
        _ = 256 ^ n * 256 := by ring
      exact Nat.div_lt_of_lt_mul h1
    have hhv : v / 256 ^ n < 256 := by
      have h1 : v < 256 ^ n * 256 := by
        calc v < 256 ^ (n + 1) := hv
        _ = 256 ^ n * 256 := by ring
      exact Nat.div_lt_of_lt_mul h1
    have hda : a / 256 ^ n % 256 = a / 256 ^ n := Nat.mod_eq_of_lt hha
    have hdv : v / 256 ^ n % 256 = v / 256 ^ n := Nat.mod_eq_of_lt hhv
    have hma : a % 256 ^ n < 256 ^ n := Nat.mod_lt _ (Nat.pos_pow_of_pos n (by norm_num))
    have hmv : v % 256 ^ n < 256 ^ n := Nat.mod_lt _ (Nat.pos_pow_of_pos n (by norm_num))
    have hrec := ih hma hmv
    simp only [beBytes, blt, hda, hdv, hrec]
    have hea := Nat.div_add_mod a (256 ^ n)
    have hev := Nat.div_add_mod v (256 ^ n)
    by_cases hq : a / 256 ^ n = v / 256 ^ n
    · have hbq : (a / 256 ^ n == v / 256 ^ n) = true := by simp [hq]
      have hqlt : ¬ a / 256 ^ n < v / 256 ^ n := by omega
      rw [hq] at hea
      have hiff : (a < v) ↔ (a % 256 ^ n < v % 256 ^ n) := by omega
      have hdec : decide (a < v) = decide (a % 256 ^ n < v % 256 ^ n) :=
        decide_eq_decide.mpr hiff
      simp [hbq, hqlt, hdec]
    · have hbq : (a / 256 ^ n == v / 256 ^ n) = false := by simp [hq]
      simp only [hbq, Bool.false_and, Bool.or_false]
      rcases Nat.lt_or_ge (a / 256 ^ n) (v / 256 ^ n) with hlt | hge
      · have hav : a < v := by
          have h1 : a < 256 ^ n * (a / 256 ^ n) + 256 ^ n := by omega
          have h2 : 256 ^ n * (a / 256 ^ n) + 256 ^ n = 256 ^ n * (a / 256 ^ n + 1) := by ring
          have h3 : 256 ^ n * (a / 256 ^ n + 1) ≤ 256 ^ n * (v / 256 ^ n) :=
            Nat.mul_le_mul_left _ hlt
          omega
        simp [hlt, hav]
      · have hgt : v / 256 ^ n < a / 256 ^ n := by omega
        have hva : v < a := by
          have h1 : v < 256 ^ n * (v / 256 ^ n) + 256 ^ n := by omega
          have h2 : 256 ^ n * (v / 256 ^ n) + 256 ^ n = 256 ^ n * (v / 256 ^ n + 1) := by ring
          have h3 : 256 ^ n * (v / 256 ^ n + 1) ≤ 256 ^ n * (a / 256 ^ n) :=
            Nat.mul_le_mul_left _ hgt
          omega
        have hqlt : ¬ a / 256 ^ n < v / 256 ^ n := by omega
        have havn : ¬ a < v := by omega
        simp [hqlt, havn]

theorem beBytes_inj {len a v : Nat} (ha : a < 256 ^ len) (hv : v < 256 ^ len)
    (h : beBytes len a = beBytes len v) : a = v := by
  by_contra hne
  rcases Nat.lt_or_ge a v with hlt | hge
  · have := beBytes_blt ha hv
    rw [h, blt_irrefl] at this
    simp [hlt] at this
  · have hgt : v < a := by omega
    have := beBytes_blt hv ha
    rw [h, blt_irrefl] at this
    simp [hgt] at this

theorem beBytes_ble {len a v : Nat} (ha : a < 256 ^ len) (hv : v < 256 ^ len) :
    ble (beBytes len a) (beBytes len v) = decide (a ≤ v) := by
  unfold ble
  rw [beBytes_blt hv ha]
  rcases Nat.lt_or_ge v a with h | h
  · have : ¬ a ≤ v := by omega
    simp [h, this]
  · have : ¬ v < a := by omega
    simp [this, h]

theorem fromBE_acc (l : Bytes) (acc : Nat) :
    l.foldl (fun acc x => acc * 256 + x) acc = acc * 256 ^ l.length + fromBE l := by
  induction l generalizing acc with
  | nil => simp [fromBE]
  | cons b t ih =>
    simp only [List.foldl_cons, List.length_cons, fromBE]
    rw [ih (acc * 256 + b), ih (0 * 256 + b)]
    ring

theorem fromBE_cons (b : Nat) (t : Bytes) :
    fromBE (b :: t) = b * 256 ^ t.length + fromBE t := by
  show (b :: t).foldl (fun acc x => acc * 256 + x) 0 = _
  simp only [List.foldl_cons]
  rw [fromBE_acc t (0 * 256 + b)]
  show (0 * 256 + b) * 256 ^ t.length + fromBE t = _
  ring

theorem fromBE_lt {l : Bytes} (h : ∀ b ∈ l, b < 256) : fromBE l < 256 ^ l.length := by
  induction l with
  | nil => simp [fromBE]
  | cons b t ih =>
    rw [fromBE_cons]
    have hb : b < 256 := h b (by simp)
    have ht := ih (fun x hx => h x (by simp [hx]))
    have h1 : b * 256 ^ t.length + fromBE t < (b + 1) * 256 ^ t.length := by
      have h0 : (b + 1) * 256 ^ t.length = b * 256 ^ t.length + 256 ^ t.length := by ring
      omega
    have h2 : (b + 1) * 256 ^ t.length ≤ 256 * 256 ^ t.length :=
      Nat.mul_le_mul_right _ (by omega)
    calc b * 256 ^ t.length + fromBE t < (b + 1) * 256 ^ t.length := h1
    _ ≤ 256 * 256 ^ t.length := h2
    _ = 256 ^ (t.length + 1) := by ring
    _ = 256 ^ (b :: t).length := by simp

theorem fromBE_beBytes {len v : Nat} (h : v < 256 ^ len) :
    fromBE (beBytes len v) = v := by
  induction len generalizing v with
  | zero =>
    simp only [Nat.pow_zero, Nat.lt_one_iff] at h
    subst h; rfl
  | succ n ih =>
    have hm : v % 256 ^ n < 256 ^ n := Nat.mod_lt _ (Nat.pos_pow_of_pos n (by norm_num))
    have hd : v / 256 ^ n < 256 := by
      have h1 : v < 256 ^ n * 256 := by
        calc v < 256 ^ (n + 1) := h
        _ = 256 ^ n * 256 := by ring
      exact Nat.div_lt_of_lt_mul h1
    simp only [beBytes, fromBE_cons, beBytes_length, ih hm, Nat.mod_eq_of_lt hd]
    rw [Nat.mul_comm]
    exact Nat.div_add_mod v (256 ^ n)

theorem beBytes_fromBE {l : Bytes} {len : Nat} (hb : ∀ b ∈ l, b < 256)
    (hl : l.length = len) : beBytes len (fromBE l) = l := by
  induction l generalizing len with
  | nil => subst hl; rfl
  | cons b t ih =>
    subst hl
    have hbb : b < 256 := hb b (by simp)
    have hbt : ∀ x ∈ t, x < 256 := fun x hx => hb x (by simp [hx])
    have hft := fromBE_lt hbt
    simp only [List.length_cons, beBytes, fromBE_cons]
    have hhead : (b * 256 ^ t.length + fromBE t) / 256 ^ t.length % 256 = b := by
      rw [Nat.mul_comm b, Nat.mul_add_div (Nat.pos_pow_of_pos t.length (by norm_num)),
        Nat.div_eq_of_lt hft]
      simp [Nat.mod_eq_of_lt hbb]
    have htail : (b * 256 ^ t.length + fromBE t) % 256 ^ t.length = fromBE t := by
      rw [Nat.mul_comm b, Nat.mul_add_mod, Nat.mod_eq_of_lt hft]
    rw [hhead, htail, ih hbt rfl]

theorem leBytes_length (len v : Nat) : (leBytes len v).length = len := by
  induction len generalizing v with
  | zero => rfl
  | succ n ih => simp [leBytes, ih]

theorem fromLE_leBytes {len v : Nat} (h : v < 256 ^ len) :
    fromLE (leBytes len v) = v := by
  induction len generalizing v with
  | zero =>
    simp only [Nat.pow_zero, Nat.lt_one_iff] at h
    subst h; rfl
  | succ n ih =>
    have hd : v / 256 < 256 ^ n := by
      have h1 : v < 256 * 256 ^ n := by
        calc v < 256 ^ (n + 1) := h
        _ = 256 * 256 ^ n := by ring
      exact Nat.div_lt_of_lt_mul (by omega)
    simp only [leBytes, fromLE, ih hd]
    omega

theorem incLastByte_cons {b : Nat} {rest : Bytes} (h : rest ≠ []) :
    incLastByte (b :: rest) = b :: incLastByte rest := by
  cases rest with
  | nil => exact absurd rfl h
  | cons r rs => rfl

theorem pow256_sub_one_mod {n : Nat} (h : 1 ≤ n) : (256 ^ n - 1) % 256 = 255 := by
  cases n with
  | zero => omega
  | succ m =>
    have h1 : 256 ^ (m + 1) = 256 * 256 ^ m := by ring
    have h2 : 1 ≤ 256 ^ m := Nat.one_le_pow _ _ (by norm_num)
    rw [h1]
    omega

theorem beBytes_succ {len v : Nat} (hlen : 1 ≤ len) (h : v % 256 ≠ 255) :
    incLastByte (beBytes len v) = beBytes len (v + 1) := by
  induction len generalizing v with
  | zero => omega
  | succ n ih =>
    cases n with
    | zero =>
      simp only [beBytes, Nat.pow_zero, Nat.div_one, Nat.mod_one]
      show [(v % 256 + 1) % 256] = [(v + 1) % 256]
      have h1 : v % 256 < 255 := by omega
      have h2 : (v + 1) % 256 = v % 256 + 1 := by omega
      have h3 : (v % 256 + 1) % 256 = v % 256 + 1 := by omega
      rw [h2, h3]
    | succ m =>
      have hm1 : 1 ≤ m + 1 := by omega
      have hdvd : (256 : Nat) ∣ 256 ^ (m + 1) := dvd_pow_self 256 (by omega)
      have hmodmod : v % 256 ^ (m + 1) % 256 = v % 256 := Nat.mod_mod_of_dvd v hdvd
      have hmne : v % 256 ^ (m + 1) % 256 ≠ 255 := by rw [hmodmod]; exact h
      have hpos : 0 < 256 ^ (m + 1) := Nat.pos_pow_of_pos _ (by norm_num)
      have hne : v % 256 ^ (m + 1) ≠ 256 ^ (m + 1) - 1 := by
        intro hc
        rw [hc] at hmne
        exact hmne (pow256_sub_one_mod hm1)
      have hlt : v % 256 ^ (m + 1) < 256 ^ (m + 1) := Nat.mod_lt _ hpos
      have hvm := Nat.div_add_mod v (256 ^ (m + 1))
      have h2 : v % 256 ^ (m + 1) + 1 < 256 ^ (m + 1) := by omega
      have hv1 : v + 1 = 256 ^ (m + 1) * (v / 256 ^ (m + 1)) + (v % 256 ^ (m + 1) + 1) := by
        omega
      have hmod1 : (v + 1) % 256 ^ (m + 1) = v % 256 ^ (m + 1) + 1 := by
        rw [hv1, Nat.mul_add_mod, Nat.mod_eq_of_lt h2]
      have hdiv1 : (v + 1) / 256 ^ (m + 1) = v / 256 ^ (m + 1) := by
        rw [hv1, Nat.mul_add_div hpos, Nat.div_eq_of_lt h2, Nat.add_zero]
      have hne2 : beBytes (m + 1) (v % 256 ^ (m + 1)) ≠ [] := by
        intro hc
        have := beBytes_length (m + 1) (v % 256 ^ (m + 1))
        rw [hc] at this
        simp at this
      show incLastByte (v / 256 ^ (m + 1) % 256 :: beBytes (m + 1) (v % 256 ^ (m + 1)))
        = (v + 1) / 256 ^ (m + 1) % 256 :: beBytes (m + 1) ((v + 1) % 256 ^ (m + 1))
      rw [incLastByte_cons hne2, ih hm1 hmne, hmod1, hdiv1]

/-! ## Lemmas about the key codec -/

theorem decodeStr_nil : decodeStr [] = none := by
  rw [decodeStr.eq_def]

theorem decodeStr_zz (r : Bytes) : decodeStr (0 :: 0 :: r) = some ([], r) := by
  rw [decodeStr.eq_def]
  simp

theorem decodeStr_zf (r : Bytes) :
    decodeStr (0 :: 255 :: r) = (decodeStr r).map (fun p => (0 :: p.1, p.2)) := by
  rw [decodeStr.eq_def]
  simp

theorem decodeStr_z_other {c : Nat} (r : Bytes) (h : c ≠ 0) (h2 : c ≠ 255) :
    decodeStr (0 :: c :: r) = none := by
  rw [decodeStr.eq_def]
  simp [h, h2]

theorem decodeStr_z_nil : decodeStr [0] = none := by
  rw [decodeStr.eq_def]
  simp

theorem decodeStr_cons {b : Nat} (rest : Bytes) (h : b ≠ 0) :
    decodeStr (b :: rest) = (decodeStr rest).map (fun p => (b :: p.1, p.2)) := by
  rw [decodeStr.eq_def]
  simp [h]

theorem decodeStr_encStr (s r : Bytes) : decodeStr (encStr s ++ r) = some (s, r) := by
  induction s with
  | nil =>
    show decodeStr (0 :: 0 :: r) = some ([], r)
    exact decodeStr_zz r
  | cons b t ih =>
    have hsplit : encStr (b :: t) ++ r = escByte b ++ (encStr t ++ r) := by
      simp [encStr, escStr]
    rw [hsplit]
    by_cases hb : b = 0
    · subst hb
      have he : escByte 0 = [0, 255] := by simp [escByte]
      rw [he]
      show decodeStr (0 :: 255 :: (encStr t ++ r)) = _
      rw [decodeStr_zf, ih]
      rfl
    · have he : escByte b = [b] := by simp [escByte, hb]
      rw [he]
      show decodeStr (b :: (encStr t ++ r)) = _
      rw [decodeStr_cons _ hb, ih]
      rfl

theorem decodeStr_recon_aux (n : Nat) :
    ∀ x : Bytes, x.length ≤ n → ∀ p : Bytes × Bytes,
      decodeStr x = some p → x = encStr p.1 ++ p.2 := by
  induction n with
  | zero =>
    intro x hx p h
    have : x = [] := by
      cases x with
      | nil => rfl
      | cons a t => simp at hx
    subst this
    rw [decodeStr_nil] at h
    exact absurd h (by simp)
  | succ m ih =>
    intro x hx p h
    cases x with
    | nil =>
      rw [decodeStr_nil] at h
      exact absurd h (by simp)
    | cons b rest =>
      by_cases hb : b = 0
      · subst hb
        cases rest with
        | nil =>
          rw [decodeStr_z_nil] at h
          exact absurd h (by simp)
        | cons c r =>
          by_cases hc : c = 0
          · subst hc
            rw [decodeStr_zz] at h
            simp only [Option.some_inj] at h
            subst h
            simp [encStr, escStr]
          · by_cases hc2 : c = 255
            · subst hc2
              rw [decodeStr_zf] at h
              simp only [Option.map_eq_some'] at h
              obtain ⟨q, hq, hqp⟩ := h
              have hlen : r.length ≤ m := by
                simp only [List.length_cons] at hx
                omega
              have hr := ih r hlen q hq
              subst hqp
              simp only [encStr, escStr, escByte, if_pos rfl]
              simp [hr, encStr]
            · rw [decodeStr_z_other r hc hc2] at h
              exact absurd h (by simp)
      · rw [decodeStr_cons rest hb] at h
        simp only [Option.map_eq_some'] at h
        obtain ⟨q, hq, hqp⟩ := h
        have hlen : rest.length ≤ m := by
          simp only [List.length_cons] at hx
          omega
        have hr := ih rest hlen q hq
        subst hqp
        simp only [encStr, escStr, escByte, if_neg hb]
        simp [hr, encStr]

theorem decodeStr_recon {x : Bytes} {p : Bytes × Bytes} (h : decodeStr x = some p) :
    x = encStr p.1 ++ p.2 :=
  decodeStr_recon_aux x.length x (Nat.le_refl _) p h

theorem encStr_self_delim {a b : Bytes} {x y : Bytes}
    (h : encStr a ++ x = encStr b ++ y) : a = b ∧ x = y := by
  have h1 : decodeStr (encStr a ++ x) = some (a, x) := decodeStr_encStr a x
  rw [h, decodeStr_encStr] at h1
  simp only [Option.some_inj, Prod.mk.injEq] at h1
  exact ⟨h1.1.symm, h1.2.symm⟩

theorem encStr_not_pfx {a b : Bytes} (hne : a ≠ b) (t : Bytes) :
    encStr b ≠ encStr a ++ t := by
  intro hc
  have h1 : encStr a ++ t = encStr b ++ [] := by simp [hc]
  exact hne (encStr_self_delim h1).1

theorem decodeU64_u64be {v : Nat} (hv : v < 256 ^ 8) (r : Bytes) :
    decodeU64 (u64be v ++ r) = some (v, r) := by
  have hlen : (u64be v).length = 8 := beBytes_length 8 v
  unfold decodeU64
  have htk : (u64be v ++ r).take 8 = u64be v := by
    rw [List.take_append_of_le_length (by omega), List.take_of_length_le (by omega)]
  have hdp : (u64be v ++ r).drop 8 = r := by
    rw [List.drop_append_of_le_length (by omega), List.drop_of_length_le (by omega)]
    simp
  have hl : ¬ (u64be v ++ r).length < 8 := by
    simp only [List.length_append, hlen]
    omega
  rw [if_neg hl, htk, hdp]
  rw [show fromBE (u64be v) = v from fromBE_beBytes hv]

theorem decodeU64_recon {b : Bytes} {p : Nat × Bytes} (h : decodeU64 b = some p)
    (hb : ∀ x ∈ b, x < 256) : b = u64be p.1 ++ p.2 ∧ p.1 < 256 ^ 8 := by
  unfold decodeU64 at h
  by_cases hl : b.length < 8
  · rw [if_pos hl] at h
    exact absurd h (by simp)
  · rw [if_neg hl] at h
    simp only [Option.some_inj] at h
    subst h
    have htb : ∀ x ∈ b.take 8, x < 256 := fun x hx => hb x (List.mem_of_mem_take hx)
    have htl : (b.take 8).length = 8 := by
      rw [List.length_take]
      omega
    constructor
    · show b = u64be (fromBE (b.take 8)) ++ b.drop 8
      rw [show u64be (fromBE (b.take 8)) = beBytes 8 (fromBE (b.take 8)) from rfl]
      rw [beBytes_fromBE htb htl]
      simp
    · show fromBE (b.take 8) < 256 ^ 8
      have := fromBE_lt htb
      rw [htl] at this
      exact this

theorem decodeMvccKey_z (rest : Bytes) :
    decodeMvccKey (0 :: rest) = if rest = [] then some MvccKey.NextVersion else none := rfl

theorem decodeMvccKey_one (rest : Bytes) :
    decodeMvccKey (1 :: rest) =
      (match decodeU64 rest with
       | some (v, []) => some (MvccKey.TxnActive v)
       | _ => none) := rfl

theorem decodeMvccKey_two (rest : Bytes) :
    decodeMvccKey (2 :: rest) =
      (match decodeU64 rest with
       | some (v, r) =>
         match decodeStr r with
         | some (k, []) => some (MvccKey.TxnWrite v k)
         | _ => none
       | none => none) := rfl

theorem decodeMvccKey_three (rest : Bytes) :
    decodeMvccKey (3 :: rest) =
      (match decodeStr rest with
       | some (k, r) =>
         match decodeU64 r with
         | some (v, []) => some (MvccKey.Version k v)
         | _ => none
       | none => none) := rfl

theorem decodeMvccKey_other (n : Nat) (rest : Bytes) :
    decodeMvccKey ((n + 4) :: rest) = none := rfl

theorem decodeMvccKey_nil : decodeMvccKey [] = none := rfl

/-- Bound on the version fields and byte-validity of the raw-key field of a
decoded `MvccKey`. -/
def mkWf : MvccKey → Prop
  | .NextVersion => True
  | .TxnActive v => v < 256 ^ 8
  | .TxnWrite v k => v < 256 ^ 8 ∧ ∀ b ∈ k, b < 256
  | .Version k v => v < 256 ^ 8 ∧ ∀ b ∈ k, b < 256

theorem escStr_bytes {s : Bytes} (hs : ∀ b ∈ escStr s, b < 256) : ∀ b ∈ s, b < 256 := by
  induction s with
  | nil => simp
  | cons c t ih =>
    intro b hb
    simp only [List.mem_cons] at hb
    have hsplit : escStr (c :: t) = escByte c ++ escStr t := rfl
    rcases hb with rfl | hb
    · by_cases hc : b = 0
      · omega
      · have : b ∈ escStr (b :: t) := by
          rw [hsplit]
          simp [escByte, hc]
        exact hs b this
    · exact ih (fun x hx => hs x (by rw [hsplit]; exact List.mem_append_right _ hx)) b hb

theorem decodeMvccKey_recon {x : Bytes} {mk : MvccKey}
    (h : decodeMvccKey x = some mk) (hb : ∀ b ∈ x, b < 256) :
    x = mk.encode ∧ mkWf mk := by
  match x with
  | [] =>
    rw [decodeMvccKey_nil] at h
    exact absurd h (by simp)
  | 0 :: rest =>
    rw [decodeMvccKey_z] at h
    by_cases hr : rest = []
    · subst hr
      rw [if_pos rfl] at h
      simp only [Option.some_inj] at h
      subst h
      exact ⟨rfl, trivial⟩
    · rw [if_neg hr] at h
      exact absurd h (by simp)
  | 1 :: rest =>
    rw [decodeMvccKey_one] at h
    have hrb : ∀ b ∈ rest, b < 256 := fun b hbm => hb b (by simp [hbm])
    match hu : decodeU64 rest with
    | some (v, []) =>
      simp only [hu, Option.some_inj] at h
      subst h
      obtain ⟨hrec, hbound⟩ := decodeU64_recon hu hrb
      refine ⟨?_, hbound⟩
      show 1 :: rest = 1 :: u64be v
      rw [hrec]
      simp
    | some (v, c :: r) => simp [hu] at h
    | none => simp [hu] at h
  | 2 :: rest =>
    rw [decodeMvccKey_two] at h
    have hrb : ∀ b ∈ rest, b < 256 := fun b hbm => hb b (by simp [hbm])
    match hu : decodeU64 rest with
    | some (v, r) =>
      simp only [hu] at h
      match hs : decodeStr r with
      | some (k, []) =>
        simp only [hs, Option.some_inj] at h
        subst h
        obtain ⟨hrec, hbound⟩ := decodeU64_recon hu hrb
        have hsr := decodeStr_recon hs
        simp only [List.append_nil] at hsr
        have hkb : ∀ b ∈ k, b < 256 := by
          apply escStr_bytes
          intro b hbm
          apply hrb
          rw [hrec]
          apply List.mem_append_right
          rw [hsr]
          exact List.mem_append_left _ (by simp [encStr, hbm])
        refine ⟨?_, hbound, hkb⟩
        show 2 :: rest = 2 :: (u64be v ++ encStr k)
        rw [hrec, hsr]
      | some (k, c :: t) => simp [hs] at h
      | none => simp [hs] at h
    | none => simp [hu] at h
  | 3 :: rest =>
    rw [decodeMvccKey_three] at h
    have hrb : ∀ b ∈ rest, b < 256 := fun b hbm => hb b (by simp [hbm])
    match hs : decodeStr rest with
    | some (k, r) =>
      simp only [hs] at h
      match hu : decodeU64 r with
      | some (v, []) =>
        simp only [hu, Option.some_inj] at h
        subst h
        have hsr := decodeStr_recon hs
        have hrrb : ∀ b ∈ r, b < 256 := by
          intro b hbm
          apply hrb
          rw [hsr]
          exact List.mem_append_right _ hbm
        obtain ⟨hrec, hbound⟩ := decodeU64_recon hu hrrb
        simp only [List.append_nil] at hrec
        have hkb : ∀ b ∈ k, b < 256 := by
          apply escStr_bytes
          intro b hbm
          apply hrb
          rw [hsr]
          exact List.mem_append_left _ (by simp [encStr, hbm])
        refine ⟨?_, hbound, hkb⟩
        show 3 :: rest = 3 :: (encStr k ++ u64be v)
        rw [hsr, hrec]
      | some (v, c :: t) => simp [hu] at h
      | none => simp [hu] at h
    | none => simp [hs] at h
  | (n + 4) :: rest =>
    rw [decodeMvccKey_other] at h
    exact absurd h (by simp)

theorem decodeMvccKey_encode {mk : MvccKey} (h : mkWf mk) :
    decodeMvccKey mk.encode = some mk := by
  match mk with
  | .NextVersion => rfl
  | .TxnActive v =>
    show decodeMvccKey (1 :: u64be v) = _
    rw [decodeMvccKey_one]
    have h0 : u64be v = u64be v ++ [] := by simp
    rw [h0, decodeU64_u64be h]
  | .TxnWrite v k =>
    show decodeMvccKey (2 :: (u64be v ++ encStr k)) = _
    rw [decodeMvccKey_two]
    have h1 : decodeStr (encStr k) = some (k, []) := by
      have := decodeStr_encStr k []
      simpa using this
    simp only [decodeU64_u64be h.1, h1]
  | .Version k v =>
    show decodeMvccKey (3 :: (encStr k ++ u64be v)) = _
    rw [decodeMvccKey_three]
    have h1 : decodeU64 (u64be v) = some (v, []) := by
      have := decodeU64_u64be h.1 ([] : Bytes)
      simpa using this
    simp only [decodeStr_encStr, h1]

/-! ## Range characterizations over encoded keys -/

theorem blt_cons_lt {a b : Nat} (h : a < b) (x y : Bytes) :
    blt (a :: x) (b :: y) = true := by
  simp [blt, h]

theorem blt_cons_gt {a b : Nat} (h : b < a) (x y : Bytes) :
    blt (a :: x) (b :: y) = false := by
  have h1 : ¬ a < b := by omega
  have h2 : (a == b) = false := by simp; omega
  simp [blt, h1, h2]

theorem blt_cons_same (a : Nat) (x y : Bytes) :
    blt (a :: x) (a :: y) = blt x y := by
  simp [blt]

theorem blt_nil_right (x : Bytes) : blt x [] = false := by
  cases x <;> rfl

theorem encStr_inj {a b : Bytes} (h : encStr a = encStr b) : a = b := by
  have h1 : encStr a ++ [] = encStr b ++ [] := by simp [h]
  exact (encStr_self_delim h1).1

/-- Comparison of two encoded-string-headed keys with different raw strings is
decided by the encoded strings alone. -/
theorem blt_encStr_ne {a b : Bytes} (hne : a ≠ b) (x y : Bytes) :
    blt (encStr a ++ x) (encStr b ++ y) = blt (encStr a) (encStr b) := by
  have h1 : ∀ t, encStr b ≠ encStr a ++ t := fun t => encStr_not_pfx hne t
  have h2 : ∀ t, encStr a ≠ encStr b ++ t := fun t => encStr_not_pfx (Ne.symm hne) t
  exact blt_nopfx h1 h2 x y

/-- A key of the `Version` family lies in the closed encoded range
`Version(key, a) ..= Version(key, b)` exactly when it is `Version(key, v)`
with `a ≤ v ≤ b`. -/
theorem versionRange_char {key : Bytes} {a b : Nat} (ha : a < 256 ^ 8)
    (hb : b < 256 ^ 8) {mk : MvccKey} (hmk : mkWf mk) :
    (ble (MvccKey.Version key a).encode mk.encode = true ∧
     ble mk.encode (MvccKey.Version key b).encode = true) ↔
    ∃ v, mk = .Version key v ∧ a ≤ v ∧ v ≤ b := by
  match mk with
  | .NextVersion =>
    show (ble (3 :: _) [0] = true ∧ _) ↔ _
    rw [ble_iff_not_blt]
    rw [blt_cons_lt (by omega)]
    simp
  | .TxnActive v =>
    show (ble (3 :: _) (1 :: _) = true ∧ _) ↔ _
    rw [ble_iff_not_blt]
    rw [blt_cons_lt (by omega)]
    simp
  | .TxnWrite v k =>
    show (ble (3 :: _) (2 :: _) = true ∧ _) ↔ _
    rw [ble_iff_not_blt]
    rw [blt_cons_lt (by omega)]
    simp
  | .Version k v =>
    obtain ⟨hv, hkb⟩ := hmk
    show (ble (3 :: (encStr key ++ u64be a)) (3 :: (encStr k ++ u64be v)) = true ∧
      ble (3 :: (encStr k ++ u64be v)) (3 :: (encStr key ++ u64be b)) = true) ↔ _
    rw [ble_iff_not_blt, ble_iff_not_blt, blt_cons_same, blt_cons_same]
    by_cases hkk : k = key
    · subst hkk
      have hlen : (encStr k).length = (encStr k).length := rfl
      rw [blt_append hlen, blt_append hlen]
      simp only [if_pos rfl]
      show (blt (u64be v) (u64be a) = false ∧ blt (u64be b) (u64be v) = false) ↔ _
      rw [show u64be v = beBytes 8 v from rfl, show u64be a = beBytes 8 a from rfl,
        show u64be b = beBytes 8 b from rfl, beBytes_blt hv ha, beBytes_blt hb hv]
      constructor
      · intro ⟨h1, h2⟩
        refine ⟨v, rfl, ?_, ?_⟩ <;> simp_all
      · intro ⟨w, hw, h1, h2⟩
        have : w = v := by
          have := (MvccKey.Version.injEq _ _ _ _).mp hw
          exact this.2.symm
        subst this
        constructor <;> simp <;> omega
    · rw [blt_encStr_ne hkk, blt_encStr_ne (Ne.symm hkk)]
      have hne2 : encStr k ≠ encStr key := fun hc => hkk (encStr_inj hc)
      rcases blt_conn hne2 with hc | hc
      · rw [hc]
        constructor
        · rintro ⟨h1, h2⟩
          exact absurd h1 (by simp)
        · rintro ⟨w, hw, hwa, hwb⟩
          have := (MvccKey.Version.injEq _ _ _ _).mp hw
          exact absurd this.1 hkk
      · rw [hc]
        constructor
        · rintro ⟨h1, h2⟩
          exact absurd h2 (by simp)
        · rintro ⟨w, hw, hwa, hwb⟩
          have := (MvccKey.Version.injEq _ _ _ _).mp hw
          exact absurd this.1 hkk

/-- A key of the MVCC key space lies in the encoded `TxnWrite(v)` prefix range
(scanned by `commit` and `rollback`) exactly when it is `TxnWrite(v, k)`. -/
theorem txnWriteRange_char {v : Nat} (hv : v < 256 ^ 8) (hmod : v % 256 ≠ 255)
    {mk : MvccKey} (hmk : mkWf mk) :
    (ble (MvccKeyPfx.TxnWrite v).encode mk.encode = true ∧
     blt mk.encode (incLastByte (MvccKeyPfx.TxnWrite v).encode) = true) ↔
    ∃ k, mk = .TxnWrite v k := by
  have hne : u64be v ≠ [] := by
    intro hc
    have := beBytes_length 8 v
    rw [show u64be v = beBytes 8 v from rfl] at hc
    rw [hc] at this
    simp at this
  have hinc : incLastByte (MvccKeyPfx.TxnWrite v).encode = 2 :: u64be (v + 1) := by
    show incLastByte (2 :: u64be v) = _
    rw [incLastByte_cons hne]
    rw [show u64be v = beBytes 8 v from rfl, beBytes_succ (by omega) hmod]
    rfl
  have hv1 : v + 1 < 256 ^ 8 := by
    rcases Nat.lt_or_ge (v + 1) (256 ^ 8) with h | h
    · exact h
    · have : v = 256 ^ 8 - 1 := by norm_num at h hv ⊢; omega
      rw [this] at hmod
      exact absurd (pow256_sub_one_mod (by norm_num)) hmod
  rw [hinc]
  match mk with
  | .NextVersion =>
    show (ble (2 :: _) [0] = true ∧ _) ↔ _
    rw [ble_iff_not_blt, blt_cons_lt (by omega)]
    simp
  | .TxnActive w =>
    show (ble (2 :: _) (1 :: _) = true ∧ _) ↔ _
    rw [ble_iff_not_blt, blt_cons_lt (by omega)]
    simp
  | .Version k w =>
    show (_ ∧ blt (3 :: _) (2 :: _) = true) ↔ _
    rw [blt_cons_gt (by omega)]
    simp
  | .TxnWrite w k =>
    obtain ⟨hw, hkb⟩ := hmk
    show (ble (2 :: u64be v) (2 :: (u64be w ++ encStr k)) = true ∧
      blt (2 :: (u64be w ++ encStr k)) (2 :: u64be (v + 1)) = true) ↔ _
    rw [ble_iff_not_blt, blt_cons_same, blt_cons_same]
    have hlen : (u64be w).length = (u64be v).length := by
      simp [u64be, beBytes_length]
    have hlow : blt (u64be w ++ encStr k) (u64be v ++ []) =
        if u64be w = u64be v then blt (encStr k) [] else blt (u64be w) (u64be v) :=
      blt_append hlen _ _
    have hlen1 : (u64be w).length = (u64be (v + 1)).length := by
      simp [u64be, beBytes_length]
    have hhigh : blt (u64be w ++ encStr k) (u64be (v + 1) ++ []) =
        if u64be w = u64be (v + 1) then blt (encStr k) [] else blt (u64be w) (u64be (v + 1)) :=
      blt_append hlen1 _ _
    simp only [List.append_nil] at hlow hhigh
    rw [hlow, hhigh]
    by_cases heq : w = v
    · subst heq
      have hne1 : u64be w ≠ u64be (w + 1) := by
        intro hc
        have := beBytes_inj hw hv1 hc
        omega
      rw [if_pos rfl, if_neg hne1, blt_nil_right]
      rw [show u64be w = beBytes 8 w from rfl, show u64be (w + 1) = beBytes 8 (w + 1) from rfl,
        beBytes_blt hw hv1]
      simp
    · have hne1 : u64be w ≠ u64be v := by
        intro hc
        exact heq (beBytes_inj hw hv hc)
      rw [if_neg hne1]
      by_cases heq1 : w = v + 1
      · subst heq1
        rw [if_pos rfl, blt_nil_right]
        simp only [Bool.false_eq_true, and_false, false_iff]
        rintro ⟨k', hk'⟩
        have := (MvccKey.TxnWrite.injEq _ _ _ _).mp hk'
        omega
      · have hne2 : u64be w ≠ u64be (v + 1) := by
          intro hc
          exact heq1 (beBytes_inj hw hv1 hc)
        rw [if_neg hne2]
        rw [show u64be w = beBytes 8 w from rfl, show u64be v = beBytes 8 v from rfl,
          show u64be (v + 1) = beBytes 8 (v + 1) from rfl,
          beBytes_blt hw hv, beBytes_blt hw hv1]
        constructor
        · rintro ⟨h1, h2⟩
          simp at h1 h2
          omega
        · rintro ⟨k', hk'⟩
          have := (MvccKey.TxnWrite.injEq _ _ _ _).mp hk'
          omega

/-- A key of the MVCC key space lies in the encoded `TxnActive` prefix range
(scanned by `begin`) exactly when it is a `TxnActive` marker. -/
theorem txnActiveRange_char {mk : MvccKey} :
    (ble (MvccKeyPfx.TxnActive).encode mk.encode = true ∧
     blt mk.encode (incLastByte (MvccKeyPfx.TxnActive).encode) = true) ↔
    ∃ v, mk = .TxnActive v := by
  have hinc : incLastByte (MvccKeyPfx.TxnActive).encode = [2] := rfl
  rw [hinc]
  match mk with
  | .NextVersion =>
    show (ble [1] [0] = true ∧ _) ↔ _
    rw [ble_iff_not_blt, blt_cons_lt (by omega)]
    simp
  | .TxnActive w =>
    show (ble [1] (1 :: u64be w) = true ∧ blt (1 :: u64be w) [2] = true) ↔ _
    rw [ble_iff_not_blt]
    have h1 : blt (1 :: u64be w) ([1] : Bytes) = false := by
      have : ([1] : Bytes) = 1 :: [] := rfl
      rw [this, blt_cons_same, blt_nil_right]
    have h2 : blt (1 :: u64be w) ([2] : Bytes) = true := by
      have : ([2] : Bytes) = 2 :: [] := rfl
      rw [this, blt_cons_lt (by omega)]
    rw [h1, h2]
    simp
  | .TxnWrite w k =>
    show (_ ∧ blt (2 :: _) [2] = true) ↔ _
    have h2 : blt (2 :: (u64be w ++ encStr k)) ([2] : Bytes) = false := by
      have : ([2] : Bytes) = 2 :: [] := rfl
      rw [this, blt_cons_same, blt_nil_right]
    rw [h2]
    simp
  | .Version k w =>
    show (_ ∧ blt (3 :: _) [2] = true) ↔ _
    have h2 : blt (3 :: (encStr k ++ u64be w)) ([2] : Bytes) = false := by
      have : ([2] : Bytes) = 2 :: [] := rfl
      rw [this, blt_cons_gt (by omega)]
    rw [h2]
    simp


/-! ## Lemmas about the sorted association-list store -/

theorem mem_storeInsert {α : Type} {k : Bytes} {v : α} {l : List (Bytes × α)}
    {kv : Bytes × α} (h : kv ∈ storeInsert k v l) : kv = (k, v) ∨ kv ∈ l := by
  induction l with
  | nil =>
    simp [storeInsert] at h
    exact Or.inl (by simp [h])
  | cons hd tl ih =>
    unfold storeInsert at h
    by_cases h1 : blt k hd.1
    · rw [if_pos h1] at h
      rcases List.mem_cons.mp h with rfl | h
      · exact Or.inl rfl
      · exact Or.inr h
    · rw [if_neg h1] at h
      by_cases h2 : k = hd.1
      · rw [if_pos h2] at h
        rcases List.mem_cons.mp h with rfl | h
        · exact Or.inl rfl
        · exact Or.inr (List.mem_cons.mpr (Or.inr h))
      · rw [if_neg h2] at h
        rcases List.mem_cons.mp h with rfl | h
        · exact Or.inr (List.mem_cons.mpr (Or.inl rfl))
        · rcases ih h with h3 | h3
          · exact Or.inl h3
          · exact Or.inr (List.mem_cons.mpr (Or.inr h3))

theorem self_mem_storeInsert {α : Type} (k : Bytes) (v : α) (l : List (Bytes × α)) :
    (k, v) ∈ storeInsert k v l := by
  induction l with
  | nil => simp [storeInsert]
  | cons hd tl ih =>
    unfold storeInsert
    by_cases h1 : blt k hd.1
    · rw [if_pos h1]; simp
    · rw [if_neg h1]
      by_cases h2 : k = hd.1
      · rw [if_pos h2]; simp
      · rw [if_neg h2]; simp [ih]

theorem sortedKeys_insert {α : Type} {k : Bytes} {v : α} {l : List (Bytes × α)}
    (hs : sortedKeys l) : sortedKeys (storeInsert k v l) := by
  induction l with
  | nil => simp [storeInsert, sortedKeys]
  | cons hd tl ih =>
    have hhd : ∀ x ∈ tl, blt hd.1 x.1 = true := fun x hx => (List.pairwise_cons.mp hs).1 x hx
    have htl : sortedKeys tl := (List.pairwise_cons.mp hs).2
    unfold storeInsert
    by_cases h1 : blt k hd.1
    · rw [if_pos h1]
      refine List.pairwise_cons.mpr ⟨?_, hs⟩
      intro x hx
      simp only [List.mem_cons] at hx
      rcases hx with rfl | hx
      · exact h1
      · exact blt_trans h1 (hhd x hx)
    · rw [if_neg h1]
      by_cases h2 : k = hd.1
      · rw [if_pos h2]
        refine List.pairwise_cons.mpr ⟨?_, htl⟩
        intro x hx
        rw [h2]
        exact hhd x hx
      · rw [if_neg h2]
        refine List.pairwise_cons.mpr ⟨?_, ih htl⟩
        intro x hx
        rcases mem_storeInsert hx with rfl | hx2
        · rcases blt_conn h2 with hc | hc
          · exact absurd hc h1
          · exact hc
        · exact hhd x hx2

theorem filter_storeInsert_of_neg {α : Type} {k : Bytes} {v : α}
    {p : Bytes × α → Bool} (hp : ∀ w : α, p (k, w) = false) (l : List (Bytes × α)) :
    (storeInsert k v l).filter p = l.filter p := by
  induction l with
  | nil => simp [storeInsert, List.filter, hp v]
  | cons hd tl ih =>
    unfold storeInsert
    by_cases h1 : blt k hd.1
    · rw [if_pos h1]
      show List.filter p ((k, v) :: hd :: tl) = _
      rw [List.filter_cons, hp v]
      simp
    · rw [if_neg h1]
      by_cases h2 : k = hd.1
      · rw [if_pos h2]
        show List.filter p ((k, v) :: tl) = _
        rw [List.filter_cons, hp v]
        have hhd : hd = (k, hd.2) := by
          rw [h2]
        have hphd : p hd = false := by
          rw [hhd]
          exact hp hd.2
        rw [List.filter_cons, hphd]
        simp
      · rw [if_neg h2]
        show List.filter p (hd :: storeInsert k v tl) = _
        rw [List.filter_cons, List.filter_cons, ih]

theorem foldl_erase_filter {α : Type} (K : List Bytes) (l : List (Bytes × α)) :
    K.foldl (fun e k => storeErase k e) l = l.filter (fun kv => decide (kv.1 ∉ K)) := by
  induction K generalizing l with
  | nil =>
    show l = l.filter _
    have : ∀ kv ∈ l, (decide (kv.1 ∉ ([] : List Bytes))) = true := by simp
    rw [List.filter_eq_self.mpr this]
  | cons k0 Kt ih =>
    show Kt.foldl _ (storeErase k0 l) = _
    rw [ih (storeErase k0 l)]
    unfold storeErase
    rw [List.filter_filter]
    apply List.filter_congr
    intro kv _
    by_cases h1 : kv.1 = k0
    · simp [h1]
    · by_cases h2 : kv.1 ∈ Kt <;> simp [h1, h2]

theorem getLast?_cons_of_ne_nil {α : Type} {xs : List α} (a : α) (h : xs ≠ []) :
    (a :: xs).getLast? = xs.getLast? := by
  cases xs with
  | nil => exact absurd rfl h
  | cons b t => exact List.getLast?_cons_cons ..

theorem filter_getLast_of_max {α : Type} {l : List (Bytes × α)} (hs : sortedKeys l)
    {k0 : Bytes} {v0 : α} (hmem : (k0, v0) ∈ l) {p : Bytes × α → Bool}
    (hp : p (k0, v0) = true)
    (hmax : ∀ kv ∈ l, p kv = true → kv = (k0, v0) ∨ blt kv.1 k0 = true) :
    (l.filter p).getLast? = some (k0, v0) := by
  induction l with
  | nil => simp at hmem
  | cons hd tl ih =>
    have hhd : ∀ x ∈ tl, blt hd.1 x.1 = true := fun x hx => (List.pairwise_cons.mp hs).1 x hx
    have htl : sortedKeys tl := (List.pairwise_cons.mp hs).2
    by_cases hcase : hd = (k0, v0)
    · subst hcase
      have hhd' : ∀ x ∈ tl, blt k0 x.1 = true := hhd
      have hnone : ∀ x ∈ tl, ¬ p x = true := by
        intro x hx hpx
        have hlt := hhd' x hx
        rcases hmax x (by simp [hx]) hpx with heq | h2
        · rw [heq] at hlt
          have : blt k0 k0 = true := hlt
          rw [blt_irrefl] at this
          exact Bool.false_ne_true this
        · have := blt_trans hlt h2
          rw [blt_irrefl] at this
          exact Bool.false_ne_true this
      rw [List.filter_cons, hp]
      have : tl.filter p = [] := List.filter_eq_nil_iff.mpr hnone
      simp [this]
    · have hmem2 : (k0, v0) ∈ tl := by
        simp only [List.mem_cons] at hmem
        rcases hmem with h | h
        · exact absurd h.symm hcase
        · exact h
      have hne : tl.filter p ≠ [] := by
        intro hc
        have := List.filter_eq_nil_iff.mp hc (k0, v0) hmem2
        exact this hp
      have hrec := ih htl hmem2 (fun kv hkv => hmax kv (by simp [hkv]))
      rw [List.filter_cons]
      by_cases hphd : p hd
      · rw [if_pos (by simp [hphd])]
        rw [getLast?_cons_of_ne_nil _ hne]
        exact hrec
      · rw [if_neg (by simp [hphd])]
        exact hrec

theorem getLast?_mem {α : Type} {l : List α} {q : α} (h : l.getLast? = some q) :
    q ∈ l := by
  induction l with
  | nil => simp [List.getLast?] at h
  | cons hd tl ih =>
    cases tl with
    | nil =>
      have : ([hd] : List α).getLast? = some hd := rfl
      rw [this] at h
      simp only [Option.some_inj] at h
      simp [h]
    | cons b t =>
      rw [List.getLast?_cons_cons] at h
      exact List.mem_cons.mpr (Or.inr (ih h))

theorem pairwise_getLast_max {α : Type} {R : α → α → Prop} {l : List α}
    (hp : List.Pairwise R l) {q : α} (hlast : l.getLast? = some q) :
    ∀ x ∈ l, x = q ∨ R x q := by
  induction l with
  | nil => simp
  | cons hd tl ih =>
    intro x hx
    cases tl with
    | nil =>
      rcases List.mem_cons.mp hx with rfl | hx2
      · have : ([x] : List α).getLast? = some x := rfl
        rw [this] at hlast
        simp only [Option.some_inj] at hlast
        exact Or.inl hlast
      · simp at hx2
    | cons b t =>
      rw [List.getLast?_cons_cons] at hlast
      have hq : q ∈ b :: t := getLast?_mem hlast
      rcases List.mem_cons.mp hx with rfl | hx2
      · exact Or.inr ((List.pairwise_cons.mp hp).1 q hq)
      · exact ih (List.pairwise_cons.mp hp).2 hlast x hx2

/-! ## Scan characterizations for the MVCC operations -/

theorem versionKey_ble {key : Bytes} {a b : Nat} (ha : a < 256 ^ 8) (hb : b < 256 ^ 8)
    (h : a ≤ b) :
    ble (MvccKey.Version key a).encode (MvccKey.Version key b).encode = true := by
  show ble (3 :: (encStr key ++ u64be a)) (3 :: (encStr key ++ u64be b)) = true
  rw [ble_iff_not_blt, blt_cons_same, blt_append rfl, if_pos rfl]
  rw [show u64be b = beBytes 8 b from rfl, show u64be a = beBytes 8 a from rfl,
    beBytes_blt hb ha]
  simp
  omega

theorem wfEntry_decode {kv : Bytes × Bytes} (h : wfEntry kv = true) :
    ∃ mk, decodeMvccKey kv.1 = some mk ∧ kv.1 = mk.encode ∧ mkWf mk := by
  unfold wfEntry at h
  simp only [Bool.and_eq_true, List.all_eq_true, decide_eq_true_eq] at h
  obtain ⟨⟨hb, hsome⟩, _⟩ := h
  obtain ⟨mk, hmk⟩ := Option.isSome_iff_exists.mp hsome
  obtain ⟨henc, hwf⟩ := decodeMvccKey_recon hmk hb
  exact ⟨mk, hmk, henc, hwf⟩

theorem wfEntry_deser {kv : Bytes × Bytes} (h : wfEntry kv = true) {k : Bytes} {w : Nat}
    (hd : decodeMvccKey kv.1 = some (.Version k w)) : (deserOpt kv.2).isSome = true := by
  unfold wfEntry at h
  simp only [Bool.and_eq_true] at h
  have := h.2
  rw [hd] at this
  exact this

theorem version_range_pred {mk : MvccKey} (hmk : mkWf mk) {key : Bytes} {a b : Nat}
    (ha : a < 256 ^ 8) (hb : b < 256 ^ 8) :
    (ble (MvccKey.Version key a).encode mk.encode &&
      ble mk.encode (MvccKey.Version key b).encode) =
    (match mk with
     | .Version k w => decide (k = key) && (decide (a ≤ w) && decide (w ≤ b))
     | _ => false) := by
  have hiff := @versionRange_char key a b ha hb mk hmk
  cases hL : (ble (MvccKey.Version key a).encode mk.encode &&
      ble mk.encode (MvccKey.Version key b).encode) with
  | true =>
    simp only [Bool.and_eq_true] at hL
    obtain ⟨v, hv, hav, hvb⟩ := hiff.mp hL
    subst hv
    simp [hav, hvb]
  | false =>
    match mk with
    | .NextVersion => rfl
    | .TxnActive w => rfl
    | .TxnWrite w k => rfl
    | .Version k w =>
      show false = (decide (k = key) && (decide (a ≤ w) && decide (w ≤ b)))
      cases hR : (decide (k = key) && (decide (a ≤ w) && decide (w ≤ b))) with
      | false => rfl
      | true =>
        simp only [Bool.and_eq_true, decide_eq_true_eq] at hR
        obtain ⟨hk, haw, hwb⟩ := hR
        subst hk
        have hboth := hiff.mpr ⟨w, rfl, haw, hwb⟩
        have hcontra : (ble (MvccKey.Version k a).encode (MvccKey.Version k w).encode &&
            ble (MvccKey.Version k w).encode (MvccKey.Version k b).encode) = true := by
          rw [hboth.1, hboth.2]
          rfl
        rw [hL] at hcontra
        exact hcontra

theorem storeScan_version_range {key : Bytes} {a b : Nat} (ha : a < 256 ^ 8)
    (hb : b < 256 ^ 8) {eng : Store} (hwf : WfStore eng) :
    storeScan (.incl (MvccKey.Version key a).encode)
        (.incl (MvccKey.Version key b).encode) eng
    = eng.filter (fun kv =>
        match decodeMvccKey kv.1 with
        | some (.Version k w) => decide (k = key) && (decide (a ≤ w) && decide (w ≤ b))
        | _ => false) := by
  unfold storeScan
  apply List.filter_congr
  intro kv hkv
  obtain ⟨mk, hmk, henc, hmkwf⟩ := wfEntry_decode (hwf kv hkv)
  show (ble (MvccKey.Version key a).encode kv.1 && ble kv.1 (MvccKey.Version key b).encode) = _
  rw [henc, decodeMvccKey_encode hmkwf]
  cases mk with
  | NextVersion => exact version_range_pred hmkwf ha hb
  | TxnActive w => exact version_range_pred hmkwf ha hb
  | TxnWrite w k => exact version_range_pred hmkwf ha hb
  | Version k w => exact version_range_pred hmkwf ha hb

theorem isVisible_le {st : TransactionState} {w : Nat} (h : st.isVisible w = true) :
    w ≤ st.version := by
  unfold TransactionState.isVisible at h
  by_cases hc : st.active_versions.contains w
  · rw [if_pos hc] at h
    exact absurd h (by simp)
  · rw [if_neg hc] at h
    exact of_decide_eq_true h

theorem isVisible_self {st : TransactionState} (h : st.version ∉ st.active_versions) :
    st.isVisible st.version = true := by
  unfold TransactionState.isVisible
  have hc : st.active_versions.contains st.version = false := by simpa using h
  rw [hc]
  simp

theorem deserOpt_serOpt {value : Option Bytes}
    (hlen : ∀ v, value = some v → v.length < 256 ^ 8) :
    deserOpt (serOpt value) = some value := by
  match value with
  | none => rfl
  | some v =>
    show deserOpt (1 :: (serU64 v.length ++ v)) = some (some v)
    have hstep : deserOpt (1 :: (serU64 v.length ++ v)) =
        (match deserU64 ((serU64 v.length ++ v).take 8) with
         | some n => if ((serU64 v.length ++ v).drop 8).length = n
                     then some (some ((serU64 v.length ++ v).drop 8)) else none
         | none => none) := rfl
    rw [hstep]
    have hl : (serU64 v.length).length = 8 := leBytes_length 8 v.length
    have htk : (serU64 v.length ++ v).take 8 = serU64 v.length := by
      rw [List.take_append_of_le_length (by omega), List.take_of_length_le (by omega)]
    have hdp : (serU64 v.length ++ v).drop 8 = v := by
      rw [List.drop_append_of_le_length (by omega), List.drop_of_length_le (by omega)]
      simp
    rw [htk, hdp]
    unfold deserU64
    rw [if_pos hl]
    have : fromLE (serU64 v.length) = v.length :=
      fromLE_leBytes (hlen v rfl)
    rw [this]
    simp

theorem mvccGetLoop_char (st : TransactionState) (r : Store)
    (hdec : ∀ kv ∈ r, ∃ rk w, decodeMvccKey kv.1 = some (.Version rk w))
    (hval : ∀ kv ∈ r, visB st kv = true → (deserOpt kv.2).isSome = true) :
    mvccGetLoop st r =
      .ok ((r.find? (visB st)).bind (fun kv => (deserOpt kv.2).getD none)) := by
  induction r with
  | nil => rfl
  | cons kv rest ih =>
    obtain ⟨rk, w, hd⟩ := hdec kv (by simp)
    show (match decodeMvccKey kv.1 with
      | some (.Version _ v) =>
        if st.isVisible v then
          match deserOpt kv.2 with
          | some p => Except.ok p
          | none => Except.error Err.Internal
        else mvccGetLoop st rest
      | _ => Except.error Err.Internal) = _
    simp only [hd]
    by_cases hvis : st.isVisible w
    · rw [if_pos hvis]
      have hvb : visB st kv = true := by
        unfold visB
        simp only [hd]
        exact hvis
      obtain ⟨p, hp⟩ := Option.isSome_iff_exists.mp (hval kv (by simp) hvb)
      rw [hp, List.find?_cons_of_pos _ hvb]
      simp [hp]
    · rw [if_neg hvis]
      have hvb : visB st kv = false := by
        unfold visB
        simp only [hd]
        simpa using hvis
      rw [List.find?_cons_of_neg _ (by simp [hvb])]
      exact ih (fun x hx => hdec x (by simp [hx])) (fun x hx => hval x (by simp [hx]))

theorem mvccGet_char {st : TransactionState} {key : Bytes} {eng : Store}
    (hwf : WfStore eng) (hv : st.version < 256 ^ 8) :
    mvccGet st key eng =
      .ok ((visEntries st key eng).getLast?.bind (fun kv => (deserOpt kv.2).getD none)) := by
  have hvalid : rangeValid (.incl (MvccKey.Version key 0).encode)
      (.incl (MvccKey.Version key st.version).encode) = true := by
    show ble (MvccKey.Version key 0).encode (MvccKey.Version key st.version).encode = true
    exact versionKey_ble (by norm_num) hv (by omega)
  have hscan : engScan (.incl (MvccKey.Version key 0).encode)
      (.incl (MvccKey.Version key st.version).encode) eng =
      .ok (storeScan (.incl (MvccKey.Version key 0).encode)
        (.incl (MvccKey.Version key st.version).encode) eng) := by
    unfold engScan
    rw [if_pos hvalid]
  show (engScan (.incl (MvccKey.Version key 0).encode)
      (.incl (MvccKey.Version key st.version).encode) eng).bind
      (fun scanned => mvccGetLoop st scanned.reverse) = _
  rw [hscan]
  show mvccGetLoop st (storeScan (.incl (MvccKey.Version key 0).encode)
      (.incl (MvccKey.Version key st.version).encode) eng).reverse = _
  rw [storeScan_version_range (by norm_num) hv hwf]
  set rangeP : Bytes × Bytes → Bool := fun kv =>
    match decodeMvccKey kv.1 with
    | some (.Version k w) => decide (k = key) && (decide (0 ≤ w) && decide (w ≤ st.version))
    | _ => false with hrangeP
  have hdec : ∀ kv ∈ (eng.filter rangeP).reverse, ∃ rk w,
      decodeMvccKey kv.1 = some (.Version rk w) := by
    intro kv hkv
    rw [List.mem_reverse] at hkv
    obtain ⟨hmem, hp⟩ := List.mem_filter.mp hkv
    obtain ⟨mk, hmk, _, _⟩ := wfEntry_decode (hwf kv hmem)
    rw [hrangeP] at hp
    simp only [hmk] at hp
    match mk, hp with
    | .Version k w, _ => exact ⟨k, w, hmk⟩
  have hval : ∀ kv ∈ (eng.filter rangeP).reverse, visB st kv = true →
      (deserOpt kv.2).isSome = true := by
    intro kv hkv hvb
    rw [List.mem_reverse] at hkv
    obtain ⟨hmem, _⟩ := List.mem_filter.mp hkv
    unfold visB at hvb
    match hd : decodeMvccKey kv.1 with
    | some (.Version k w) => exact wfEntry_deser (hwf kv hmem) hd
    | some .NextVersion => rw [hd] at hvb; exact absurd hvb (by simp)
    | some (.TxnActive w) => rw [hd] at hvb; exact absurd hvb (by simp)
    | some (.TxnWrite w k) => rw [hd] at hvb; exact absurd hvb (by simp)
    | none => rw [hd] at hvb; exact absurd hvb (by simp)
  rw [mvccGetLoop_char st _ hdec hval]
  congr 1
  have h1 : (eng.filter rangeP).reverse.find? (visB st) =
      ((eng.filter rangeP).reverse.filter (visB st)).head? :=
    (List.filter_head? _ _).symm
  rw [h1, List.filter_reverse, List.head?_reverse, List.filter_filter]
  have h2 : eng.filter (fun a => visB st a && rangeP a) = visEntries st key eng := by
    unfold visEntries
    apply List.filter_congr
    intro kv hkv
    obtain ⟨mk, hmk, _, _⟩ := wfEntry_decode (hwf kv hkv)
    rw [hrangeP]
    unfold visB
    simp only [hmk]
    match mk with
    | .NextVersion => rfl
    | .TxnActive w => rfl
    | .TxnWrite w k => rfl
    | .Version k w =>
      show (st.isVisible w && (decide (k = key) && (decide (0 ≤ w) && decide (w ≤ st.version))))
        = (decide (k = key) && st.isVisible w)
      by_cases hvis : st.isVisible w = true
      · have hle := isVisible_le hvis
        have h0 : decide (0 ≤ w) = true := by simp
        have hle' : decide (w ≤ st.version) = true := by simp [hle]
        rw [hvis, h0, hle']
        cases decide (k = key) <;> rfl
      · have hvis' : st.isVisible w = false := by
          cases hh : st.isVisible w
          · rfl
          · exact absurd hh hvis
        rw [hvis']
        cases decide (k = key) <;> rfl
  rw [h2]

theorem sortedKeys_key_unique {α : Type} {l : List (Bytes × α)} (hs : sortedKeys l)
    {kv kv' : Bytes × α} (h1 : kv ∈ l) (h2 : kv' ∈ l) (hk : kv.1 = kv'.1) : kv = kv' := by
  induction l with
  | nil => simp at h1
  | cons hd tl ih =>
    have hhd : ∀ x ∈ tl, blt hd.1 x.1 = true := fun x hx => (List.pairwise_cons.mp hs).1 x hx
    have htl : sortedKeys tl := (List.pairwise_cons.mp hs).2
    rcases List.mem_cons.mp h1 with rfl | h1'
    · rcases List.mem_cons.mp h2 with rfl | h2'
      · rfl
      · have := hhd kv' h2'
        rw [← hk, blt_irrefl] at this
        exact absurd this (by simp)
    · rcases List.mem_cons.mp h2 with rfl | h2'
      · have := hhd kv h1'
        rw [hk, blt_irrefl] at this
        exact absurd this (by simp)
      · exact ih htl h1' h2'

theorem encVersion_blt {key : Bytes} {w w' : Nat} (hw : w < 256 ^ 8) (hw' : w' < 256 ^ 8) :
    blt (MvccKey.Version key w).encode (MvccKey.Version key w').encode = decide (w < w') := by
  show blt (3 :: (encStr key ++ u64be w)) (3 :: (encStr key ++ u64be w')) = _
  rw [blt_cons_same, blt_append rfl, if_pos rfl]
  exact beBytes_blt hw hw'

theorem writeInner_eq (st : TransactionState) (key : Bytes) (value : Option Bytes)
    (eng : Store) :
    writeInner st key value eng =
      (engScan (.incl (MvccKey.Version key (confLo st)).encode)
        (.incl (MvccKey.Version key u64MAX).encode) eng).bind (fun scanned =>
          match scanned.getLast? with
          | some kv =>
            match decodeMvccKey kv.1 with
            | some (.Version _ v) =>
              if !(st.isVisible v) then Except.error Err.WriteConflict
              else Except.ok (storeInsert (MvccKey.Version key st.version).encode
                (serOpt value) (storeInsert (MvccKey.TxnWrite st.version key).encode [] eng))
            | _ => Except.error Err.Internal
          | none => Except.ok (storeInsert (MvccKey.Version key st.version).encode
              (serOpt value) (storeInsert (MvccKey.TxnWrite st.version key).encode [] eng))) := rfl

theorem writeInner_ok_shape {st : TransactionState} {key : Bytes} {value : Option Bytes}
    {eng eng' : Store} (h : writeInner st key value eng = .ok eng') :
    eng' = storeInsert (MvccKey.Version key st.version).encode (serOpt value)
      (storeInsert (MvccKey.TxnWrite st.version key).encode [] eng) := by
  rw [writeInner_eq] at h
  by_cases hvalid : rangeValid (.incl (MvccKey.Version key (confLo st)).encode)
      (.incl (MvccKey.Version key u64MAX).encode) = true
  · have hscan : engScan (.incl (MvccKey.Version key (confLo st)).encode)
        (.incl (MvccKey.Version key u64MAX).encode) eng =
        .ok (storeScan (.incl (MvccKey.Version key (confLo st)).encode)
          (.incl (MvccKey.Version key u64MAX).encode) eng) := by
      unfold engScan
      rw [if_pos hvalid]
    rw [hscan] at h
    simp only [Except.bind] at h
    cases hlast : (storeScan (.incl (MvccKey.Version key (confLo st)).encode)
        (.incl (MvccKey.Version key u64MAX).encode) eng).getLast? with
    | none =>
      simp only [hlast] at h
      simpa using h.symm
    | some kv =>
      simp only [hlast] at h
      cases hd : decodeMvccKey kv.1 with
      | none =>
        simp only [hd] at h
        exact absurd h (by simp)
      | some mk =>
        cases mk with
        | NextVersion =>
          simp only [hd] at h
          exact absurd h (by simp)
        | TxnActive w =>
          simp only [hd] at h
          exact absurd h (by simp)
        | TxnWrite w k =>
          simp only [hd] at h
          exact absurd h (by simp)
        | Version k w =>
          simp only [hd] at h
          by_cases hvis : st.isVisible w = true
          · rw [if_neg (by rw [hvis]; simp)] at h
            simpa using h.symm
          · have hvf : st.isVisible w = false := by
              cases hh : st.isVisible w
              · rfl
              · exact absurd hh hvis
            rw [if_pos (by rw [hvf]; rfl)] at h
            simp at h
  · have hscan : engScan (.incl (MvccKey.Version key (confLo st)).encode)
        (.incl (MvccKey.Version key u64MAX).encode) eng = .error .Internal := by
      unfold engScan
      rw [if_neg hvalid]
    rw [hscan] at h
    simp only [Except.bind] at h
    exact absurd h (by simp)

theorem writeInner_get {st : TransactionState} {key : Bytes} {value : Option Bytes}
    {eng eng' : Store} (hs : sortedKeys eng) (hnact : st.version ∉ st.active_versions)
    (hv : st.version < 256 ^ 8) (hkey : ∀ b ∈ key, b < 256)
    (hlen : ∀ v, value = some v → v.length < 256 ^ 8)
    (hw : writeInner st key value eng = .ok eng') :
    mvccGet st key eng' = .ok value := by
  have hE := writeInner_ok_shape hw
  have hs' : sortedKeys eng' := by
    rw [hE]
    exact sortedKeys_insert (sortedKeys_insert hs)
  have hvalid : rangeValid (.incl (MvccKey.Version key 0).encode)
      (.incl (MvccKey.Version key st.version).encode) = true := by
    show ble (MvccKey.Version key 0).encode (MvccKey.Version key st.version).encode = true
    exact versionKey_ble (by norm_num) hv (by omega)
  have hscan : engScan (.incl (MvccKey.Version key 0).encode)
      (.incl (MvccKey.Version key st.version).encode) eng' =
      .ok (storeScan (.incl (MvccKey.Version key 0).encode)
        (.incl (MvccKey.Version key st.version).encode) eng') := by
    unfold engScan
    rw [if_pos hvalid]
  show (engScan (.incl (MvccKey.Version key 0).encode)
      (.incl (MvccKey.Version key st.version).encode) eng').bind
      (fun scanned => mvccGetLoop st scanned.reverse) = _
  rw [hscan]
  show mvccGetLoop st (storeScan (.incl (MvccKey.Version key 0).encode)
      (.incl (MvccKey.Version key st.version).encode) eng').reverse = _
  have hmem : ((MvccKey.Version key st.version).encode, serOpt value) ∈ eng' := by
    rw [hE]
    exact self_mem_storeInsert _ _ _
  have hp : (fun kv => lowOk (.incl (MvccKey.Version key 0).encode) kv.1 &&
      highOk (.incl (MvccKey.Version key st.version).encode) kv.1)
      (((MvccKey.Version key st.version).encode, serOpt value)) = true := by
    show (ble (MvccKey.Version key 0).encode (MvccKey.Version key st.version).encode &&
      ble (MvccKey.Version key st.version).encode (MvccKey.Version key st.version).encode) = true
    have hrefl : ble (MvccKey.Version key st.version).encode
        (MvccKey.Version key st.version).encode = true := by
      rw [ble_iff_not_blt]
      exact blt_irrefl _
    rw [versionKey_ble (by norm_num) hv (by omega), hrefl]
    rfl
  have hmax : ∀ kv ∈ eng', (fun kv => lowOk (.incl (MvccKey.Version key 0).encode) kv.1 &&
      highOk (.incl (MvccKey.Version key st.version).encode) kv.1) kv = true →
      kv = ((MvccKey.Version key st.version).encode, serOpt value) ∨
        blt kv.1 (MvccKey.Version key st.version).encode = true := by
    intro kv hkv hpkv
    simp only [Bool.and_eq_true] at hpkv
    have hhigh : ble kv.1 (MvccKey.Version key st.version).encode = true := hpkv.2
    rw [ble_iff_not_blt] at hhigh
    by_cases hkeq : kv.1 = (MvccKey.Version key st.version).encode
    · left
      exact sortedKeys_key_unique hs' hkv hmem hkeq
    · right
      rcases blt_conn hkeq with hc | hc
      · exact hc
      · rw [hc] at hhigh
        exact absurd hhigh (by simp)
  have hlast : (storeScan (.incl (MvccKey.Version key 0).encode)
      (.incl (MvccKey.Version key st.version).encode) eng').getLast? =
      some ((MvccKey.Version key st.version).encode, serOpt value) :=
    filter_getLast_of_max hs' hmem hp hmax
  rcases hrev : (storeScan (.incl (MvccKey.Version key 0).encode)
      (.incl (MvccKey.Version key st.version).encode) eng').reverse with _ | ⟨e0, rest⟩
  · have : (storeScan (.incl (MvccKey.Version key 0).encode)
        (.incl (MvccKey.Version key st.version).encode) eng') = [] := by
      have := congrArg List.reverse hrev
      simpa using this
    rw [this] at hlast
    simp [List.getLast?] at hlast
  · have hhead : e0 = ((MvccKey.Version key st.version).encode, serOpt value) := by
      have h1 := List.head?_reverse (storeScan (.incl (MvccKey.Version key 0).encode)
        (.incl (MvccKey.Version key st.version).encode) eng')
      rw [hrev] at h1
      rw [hlast] at h1
      simpa using h1
    subst hhead
    show (match decodeMvccKey (MvccKey.Version key st.version).encode with
      | some (.Version _ v) =>
        if st.isVisible v then
          match deserOpt (serOpt value) with
          | some p => Except.ok p
          | none => Except.error Err.Internal
        else mvccGetLoop st rest
      | _ => Except.error Err.Internal) = _
    rw [decodeMvccKey_encode (show mkWf (.Version key st.version) from ⟨hv, hkey⟩)]
    show (if st.isVisible st.version then _ else _) = _
    rw [if_pos (isVisible_self hnact), deserOpt_serOpt hlen]

theorem minL_mem {l : List Nat} {m : Nat} (h : minL l = some m) : m ∈ l := by
  induction l generalizing m with
  | nil => simp [minL] at h
  | cons a t ih =>
    unfold minL at h
    cases hm : minL t with
    | none =>
      rw [hm] at h
      simp only [Option.some_inj] at h
      simp [← h]
    | some m' =>
      rw [hm] at h
      simp only [Option.some_inj] at h
      have hor : m = a ∨ m = m' := by omega
      rcases hor with rfl | rfl
      · simp
      · exact List.mem_cons.mpr (Or.inr (ih hm))

theorem confLo_lt {st : TransactionState} (hv1 : st.version + 1 < 256 ^ 8)
    (hact : ∀ a ∈ st.active_versions, a < 256 ^ 8) : confLo st < 256 ^ 8 := by
  unfold confLo
  cases hm : minL st.active_versions with
  | none =>
    show st.version + 1 < 256 ^ 8
    omega
  | some m => exact hact m (minL_mem hm)

theorem writeInner_conflict_char {st : TransactionState} {key : Bytes}
    {value : Option Bytes} {eng : Store} (hwf : WfStore eng)
    (hv1 : st.version + 1 < 256 ^ 8) (hact : ∀ a ∈ st.active_versions, a < 256 ^ 8) :
    writeInner st key value eng = .error .WriteConflict ↔
      ∃ kv, (confEntries st key eng).getLast? = some kv ∧
        ∃ rk w, decodeMvccKey kv.1 = some (.Version rk w) ∧ st.isVisible w = false := by
  have hlo : confLo st < 256 ^ 8 := confLo_lt hv1 hact
  have hmax : u64MAX < 256 ^ 8 := by norm_num [u64MAX]
  have hvalid : rangeValid (.incl (MvccKey.Version key (confLo st)).encode)
      (.incl (MvccKey.Version key u64MAX).encode) = true := by
    show ble (MvccKey.Version key (confLo st)).encode (MvccKey.Version key u64MAX).encode = true
    exact versionKey_ble hlo hmax (by norm_num [u64MAX] at hlo ⊢; omega)
  have hscan : engScan (.incl (MvccKey.Version key (confLo st)).encode)
      (.incl (MvccKey.Version key u64MAX).encode) eng =
      .ok (storeScan (.incl (MvccKey.Version key (confLo st)).encode)
        (.incl (MvccKey.Version key u64MAX).encode) eng) := by
    unfold engScan
    rw [if_pos hvalid]
  have hfilter : storeScan (.incl (MvccKey.Version key (confLo st)).encode)
      (.incl (MvccKey.Version key u64MAX).encode) eng = confEntries st key eng := by
    rw [storeScan_version_range hlo hmax hwf]
    unfold confEntries
    apply List.filter_congr
    intro kv hkv
    obtain ⟨mk, hmk, _, hmkwf⟩ := wfEntry_decode (hwf kv hkv)
    simp only [hmk]
    match mk, hmkwf with
    | .NextVersion, _ => rfl
    | .TxnActive w, _ => rfl
    | .TxnWrite w k, _ => rfl
    | .Version k w, hmkwf =>
      have hwle : decide (w ≤ u64MAX) = true := by
        have := hmkwf.1
        norm_num [u64MAX] at this ⊢
        omega
      show (decide (k = key) && (decide (confLo st ≤ w) && decide (w ≤ u64MAX)))
        = (decide (k = key) && decide (confLo st ≤ w))
      rw [hwle]
      cases decide (k = key) <;> cases decide (confLo st ≤ w) <;> rfl
  rw [writeInner_eq, hscan]
  simp only [Except.bind]
  rw [hfilter]
  cases hlast : (confEntries st key eng).getLast? with
  | none =>
    simp only [hlast]
    constructor
    · intro h
      exact absurd h (by simp)
    · rintro ⟨kv, hkv, _⟩
      exact absurd hkv (by simp)
  | some kv =>
    simp only [hlast]
    have hkvmem : kv ∈ confEntries st key eng := getLast?_mem hlast
    obtain ⟨hkveng, hkvp⟩ := List.mem_filter.mp hkvmem
    obtain ⟨mk, hmk, _, _⟩ := wfEntry_decode (hwf kv hkveng)
    match mk, hmk with
    | .Version rk w, hmk =>
      simp only [hmk]
      by_cases hvis : st.isVisible w = true
      · rw [if_neg (by rw [hvis]; simp)]
        constructor
        · intro h
          exact absurd h (by simp)
        · rintro ⟨kv', hkv', rk', w', hdec', hvis'⟩
          simp only [Option.some_inj] at hkv'
          subst hkv'
          rw [hmk] at hdec'
          simp only [Option.some_inj, MvccKey.Version.injEq] at hdec'
          rw [← hdec'.2] at hvis'
          rw [hvis] at hvis'
          exact absurd hvis' (by simp)
      · have hvf : st.isVisible w = false := by
          cases hh : st.isVisible w
          · rfl
          · exact absurd hh hvis
        rw [if_pos (by rw [hvf]; rfl)]
        constructor
        · intro _
          exact ⟨kv, rfl, rk, w, hmk, hvf⟩
        · intro _
          rfl
    | .NextVersion, hmk =>
      rw [hmk] at hkvp
      exact absurd hkvp (by simp)
    | .TxnActive w, hmk =>
      rw [hmk] at hkvp
      exact absurd hkvp (by simp)
    | .TxnWrite w k, hmk =>
      rw [hmk] at hkvp
      exact absurd hkvp (by simp)

theorem version_succ_lt {v : Nat} (hv : v < 256 ^ 8) (hmod : v % 256 ≠ 255) :
    v + 1 < 256 ^ 8 := by
  rcases Nat.lt_or_ge (v + 1) (256 ^ 8) with h | h
  · exact h
  · have : v = 256 ^ 8 - 1 := by norm_num at h hv ⊢; omega
    rw [this] at hmod
    exact absurd (pow256_sub_one_mod (by norm_num)) hmod

theorem u64be_ne_nil (v : Nat) : u64be v ≠ [] := by
  intro hc
  have := beBytes_length 8 v
  rw [show u64be v = beBytes 8 v from rfl] at hc
  rw [hc] at this
  simp at this

theorem incLast_txnWrite {v : Nat} (hmod : v % 256 ≠ 255) :
    incLastByte (MvccKeyPfx.TxnWrite v).encode = 2 :: u64be (v + 1) := by
  show incLastByte (2 :: u64be v) = _
  rw [incLastByte_cons (u64be_ne_nil v)]
  rw [show u64be v = beBytes 8 v from rfl, beBytes_succ (by omega) hmod]
  rfl

theorem rangeValid_txnWrite {v : Nat} (hv : v < 256 ^ 8) (hmod : v % 256 ≠ 255) :
    rangeValid (.incl (MvccKeyPfx.TxnWrite v).encode)
      (.excl (incLastByte (MvccKeyPfx.TxnWrite v).encode)) = true := by
  rw [incLast_txnWrite hmod]
  show ble (2 :: u64be v) (2 :: u64be (v + 1)) = true
  rw [ble_iff_not_blt, blt_cons_same]
  rw [show u64be (v + 1) = beBytes 8 (v + 1) from rfl, show u64be v = beBytes 8 v from rfl,
    beBytes_blt (version_succ_lt hv hmod) hv]
  simp

theorem beBytes_snoc {len v : Nat} (hlen : 1 ≤ len) :
    ∃ xs : Bytes, beBytes len v = xs ++ [v % 256] ∧ xs.length = len - 1 := by
  induction len generalizing v with
  | zero => omega
  | succ n ih =>
    cases n with
    | zero =>
      refine ⟨[], ?_, rfl⟩
      show [(v / 1) % 256] = [v % 256]
      simp
    | succ m =>
      have hdvd : (256 : Nat) ∣ 256 ^ (m + 1) := dvd_pow_self 256 (by omega)
      have hmm : v % 256 ^ (m + 1) % 256 = v % 256 := Nat.mod_mod_of_dvd v hdvd
      obtain ⟨xs, hxs, hlxs⟩ := @ih (v % 256 ^ (m + 1)) (by omega)
      rw [hmm] at hxs
      refine ⟨(v / 256 ^ (m + 1)) % 256 :: xs, ?_, ?_⟩
      · show (v / 256 ^ (m + 1)) % 256 :: beBytes (m + 1) (v % 256 ^ (m + 1)) = _
        rw [hxs]
        rfl
      · simp [hlxs]

theorem txnWrite_scan_err {v : Nat} (hmod : v % 256 = 255) (eng : Store) :
    engScanPfx (MvccKeyPfx.TxnWrite v).encode eng = .error .Internal := by
  unfold engScanPfx engScan
  obtain ⟨xs, hxs, _⟩ := @beBytes_snoc 8 v (by omega)
  rw [hmod] at hxs
  have hstart : (MvccKeyPfx.TxnWrite v).encode = 2 :: (xs ++ [255]) := by
    show 2 :: u64be v = _
    rw [show u64be v = beBytes 8 v from rfl, hxs]
  have hbound : incLastByte (MvccKeyPfx.TxnWrite v).encode = 2 :: (xs ++ [0]) := by
    rw [hstart]
    rw [incLastByte_cons (by simp)]
    congr 1
    have : ∀ ys : Bytes, incLastByte (ys ++ [255]) = ys ++ [0] := by
      intro ys
      induction ys with
      | nil => rfl
      | cons a t iht =>
        have hne : t ++ [255] ≠ ([] : Bytes) := by simp
        show incLastByte (a :: (t ++ [255])) = _
        rw [incLastByte_cons hne, iht]
        rfl
    exact this xs
  rw [hbound, hstart]
  have hblt : blt (2 :: (xs ++ [0])) (2 :: (xs ++ [255])) = true := by
    rw [blt_cons_same, blt_append rfl, if_pos rfl]
    decide
  have hvalid : ble (2 :: (xs ++ [255])) (2 :: (xs ++ [0])) = false := by
    unfold ble
    rw [hblt]
    rfl
  have hrv : rangeValid (Bnd.incl (2 :: (xs ++ [255]))) (Bnd.excl (2 :: (xs ++ [0]))) = false :=
    hvalid
  rw [if_neg (by rw [hrv]; simp)]

theorem txnWrite_range_pred {mk : MvccKey} (hmk : mkWf mk) {v : Nat}
    (hv : v < 256 ^ 8) (hmod : v % 256 ≠ 255) :
    (ble (MvccKeyPfx.TxnWrite v).encode mk.encode &&
      blt mk.encode (incLastByte (MvccKeyPfx.TxnWrite v).encode)) =
    (match mk with
     | .TxnWrite w _ => decide (w = v)
     | _ => false) := by
  have hiff := txnWriteRange_char hv hmod hmk
  cases hL : (ble (MvccKeyPfx.TxnWrite v).encode mk.encode &&
      blt mk.encode (incLastByte (MvccKeyPfx.TxnWrite v).encode)) with
  | true =>
    simp only [Bool.and_eq_true] at hL
    obtain ⟨k, hk⟩ := hiff.mp hL
    subst hk
    simp
  | false =>
    match mk with
    | .NextVersion => rfl
    | .TxnActive w => rfl
    | .Version k w => rfl
    | .TxnWrite w k =>
      show false = decide (w = v)
      cases hR : decide (w = v) with
      | false => rfl
      | true =>
        simp only [decide_eq_true_eq] at hR
        subst hR
        have hboth := hiff.mpr ⟨k, rfl⟩
        have hcontra : (ble (MvccKeyPfx.TxnWrite w).encode (MvccKey.TxnWrite w k).encode &&
            blt (MvccKey.TxnWrite w k).encode
              (incLastByte (MvccKeyPfx.TxnWrite w).encode)) = true := by
          rw [hboth.1, hboth.2]
          rfl
        rw [hL] at hcontra
        exact hcontra

theorem txnActive_range_pred (mk : MvccKey) :
    (ble MvccKeyPfx.TxnActive.encode mk.encode &&
      blt mk.encode (incLastByte MvccKeyPfx.TxnActive.encode)) =
    (match mk with
     | .TxnActive _ => true
     | _ => false) := by
  have hiff := @txnActiveRange_char mk
  cases hL : (ble MvccKeyPfx.TxnActive.encode mk.encode &&
      blt mk.encode (incLastByte MvccKeyPfx.TxnActive.encode)) with
  | true =>
    simp only [Bool.and_eq_true] at hL
    obtain ⟨w, hw⟩ := hiff.mp hL
    subst hw
    rfl
  | false =>
    match mk with
    | .NextVersion => rfl
    | .TxnWrite w k => rfl
    | .Version k w => rfl
    | .TxnActive w =>
      have hboth := hiff.mpr ⟨w, rfl⟩
      have hcontra : (ble MvccKeyPfx.TxnActive.encode (MvccKey.TxnActive w).encode &&
          blt (MvccKey.TxnActive w).encode (incLastByte MvccKeyPfx.TxnActive.encode)) = true := by
        rw [hboth.1, hboth.2]
        rfl
      rw [hL] at hcontra
      exact absurd hcontra (by simp)

theorem storeScan_txnWrite_range {v : Nat} (hv : v < 256 ^ 8) (hmod : v % 256 ≠ 255)
    {eng : Store} (hwf : WfStore eng) :
    storeScan (.incl (MvccKeyPfx.TxnWrite v).encode)
      (.excl (incLastByte (MvccKeyPfx.TxnWrite v).encode)) eng
    = eng.filter (fun kv =>
        match decodeMvccKey kv.1 with
        | some (.TxnWrite w _) => decide (w = v)
        | _ => false) := by
  unfold storeScan
  apply List.filter_congr
  intro kv hkv
  obtain ⟨mk, hmk, henc, hmkwf⟩ := wfEntry_decode (hwf kv hkv)
  show (ble (MvccKeyPfx.TxnWrite v).encode kv.1 &&
    blt kv.1 (incLastByte (MvccKeyPfx.TxnWrite v).encode)) = _
  rw [henc, decodeMvccKey_encode hmkwf]
  cases mk with
  | NextVersion => exact txnWrite_range_pred hmkwf hv hmod
  | TxnActive w => exact txnWrite_range_pred hmkwf hv hmod
  | TxnWrite w k => exact txnWrite_range_pred hmkwf hv hmod
  | Version k w => exact txnWrite_range_pred hmkwf hv hmod

theorem storeScan_txnActive_range {eng : Store} (hwf : WfStore eng) :
    storeScan (.incl MvccKeyPfx.TxnActive.encode)
      (.excl (incLastByte MvccKeyPfx.TxnActive.encode)) eng
    = eng.filter (fun kv =>
        match decodeMvccKey kv.1 with
        | some (.TxnActive _) => true
        | _ => false) := by
  unfold storeScan
  apply List.filter_congr
  intro kv hkv
  obtain ⟨mk, hmk, henc, hmkwf⟩ := wfEntry_decode (hwf kv hkv)
  show (ble MvccKeyPfx.TxnActive.encode kv.1 &&
    blt kv.1 (incLastByte MvccKeyPfx.TxnActive.encode)) = _
  rw [henc, decodeMvccKey_encode hmkwf]
  cases mk with
  | NextVersion => exact txnActive_range_pred _
  | TxnActive w => exact txnActive_range_pred _
  | TxnWrite w k => exact txnActive_range_pred _
  | Version k w => exact txnActive_range_pred _

theorem collectActive_char {eng : Store} (hwf : WfStore eng) :
    collectActive (eng.filter (fun kv =>
      match decodeMvccKey kv.1 with
      | some (.TxnActive _) => true
      | _ => false)) = .ok (activeOf eng) := by
  induction eng with
  | nil => rfl
  | cons kv tl ih =>
    have hwf' : WfStore tl := fun x hx => hwf x (by simp [hx])
    obtain ⟨mk, hmk, _, _⟩ := wfEntry_decode (hwf kv (by simp))
    have htl := ih hwf'
    rw [List.filter_cons]
    unfold activeOf
    rw [List.filterMap_cons]
    cases mk with
    | TxnActive w =>
      rw [if_pos (by simp only [hmk])]
      simp only [hmk]
      show (match decodeMvccKey kv.1 with
        | some (.TxnActive v) =>
          match collectActive (tl.filter _) with
          | .ok r => Except.ok (v :: r)
          | .error e => Except.error e
        | _ => Except.error Err.Internal) = _
      rw [hmk]
      unfold activeOf at htl
      rw [htl]
    | NextVersion =>
      rw [if_neg (by simp only [hmk]; simp)]
      simp only [hmk]
      exact htl
    | TxnWrite w k =>
      rw [if_neg (by simp only [hmk]; simp)]
      simp only [hmk]
      exact htl
    | Version k w =>
      rw [if_neg (by simp only [hmk]; simp)]
      simp only [hmk]
      exact htl

theorem mvccCommit_eq (st : TransactionState) (eng : Store) :
    mvccCommit st eng =
      (engScanPfx (MvccKeyPfx.TxnWrite st.version).encode eng).bind (fun scanned =>
        Except.ok (storeErase (MvccKey.TxnActive st.version).encode
          ((scanned.map (fun kv => kv.1)).foldl (fun e k => storeErase k e) eng))) := rfl

theorem key_eq_txnActive_iff {kv : Bytes × Bytes} {mk : MvccKey} {v : Nat}
    (henc : kv.1 = mk.encode) (hmkwf : mkWf mk) (hv : v < 256 ^ 8) :
    kv.1 = (MvccKey.TxnActive v).encode ↔ mk = .TxnActive v := by
  constructor
  · intro h
    rw [henc] at h
    have h1 : decodeMvccKey mk.encode = some mk := decodeMvccKey_encode hmkwf
    rw [h] at h1
    rw [decodeMvccKey_encode (show mkWf (.TxnActive v) from hv)] at h1
    simp only [Option.some_inj] at h1
    exact h1.symm
  · intro h
    rw [henc, h]

theorem mvccCommit_char {st : TransactionState} {eng : Store} (hwf : WfStore eng)
    (hv : st.version < 256 ^ 8) (hmod : st.version % 256 ≠ 255) :
    mvccCommit st eng = .ok (eng.filter (fun kv =>
      match decodeMvccKey kv.1 with
      | some (.TxnWrite w _) => decide (w ≠ st.version)
      | some (.TxnActive w) => decide (w ≠ st.version)
      | _ => true)) := by
  rw [mvccCommit_eq]
  have hvalid := rangeValid_txnWrite hv hmod
  have hscanok : engScanPfx (MvccKeyPfx.TxnWrite st.version).encode eng =
      .ok (storeScan (.incl (MvccKeyPfx.TxnWrite st.version).encode)
        (.excl (incLastByte (MvccKeyPfx.TxnWrite st.version).encode)) eng) := by
    unfold engScanPfx engScan
    rw [if_pos hvalid]
  rw [hscanok]
  simp only [Except.bind]
  congr 1
  rw [storeScan_txnWrite_range hv hmod hwf, foldl_erase_filter]
  unfold storeErase
  rw [List.filter_filter]
  apply List.filter_congr
  intro kv hkv
  obtain ⟨mk, hmk, henc, hmkwf⟩ := wfEntry_decode (hwf kv hkv)
  have hKmem : kv.1 ∈ (eng.filter (fun kv =>
      match decodeMvccKey kv.1 with
      | some (.TxnWrite w _) => decide (w = st.version)
      | _ => false)).map (fun kv => kv.1) ↔
      (match decodeMvccKey kv.1 with
       | some (.TxnWrite w _) => decide (w = st.version)
       | _ => false) = true := by
    constructor
    · intro h
      obtain ⟨kv', hkv', hkeq⟩ := List.mem_map.mp h
      obtain ⟨_, hp'⟩ := List.mem_filter.mp hkv'
      rw [← hkeq]
      exact hp'
    · intro h
      exact List.mem_map_of_mem _ (List.mem_filter.mpr ⟨hkv, h⟩)
  have hAct := key_eq_txnActive_iff henc hmkwf hv
  simp only [hmk] at hKmem ⊢
  cases mk with
  | TxnWrite w k =>
    have hne : kv.1 ≠ (MvccKey.TxnActive st.version).encode := by
      intro hc
      exact absurd (hAct.mp hc) (by simp)
    by_cases hw : w = st.version
    · subst hw
      have hin : kv.1 ∈ _ := hKmem.mpr (by simp)
      simp [hne, hin]
    · have hout : kv.1 ∉ _ := fun hc => by
        have := hKmem.mp hc
        simp [hw] at this
      simp [hne, hout, hw]
  | TxnActive w =>
    have hout : kv.1 ∉ _ := fun hc => by
      have := hKmem.mp hc
      simp at this
    by_cases hw : w = st.version
    · subst hw
      have heq : kv.1 = (MvccKey.TxnActive st.version).encode := hAct.mpr rfl
      simp [heq, hout]
    · have hne : kv.1 ≠ (MvccKey.TxnActive st.version).encode := by
        intro hc
        have := hAct.mp hc
        simp only [MvccKey.TxnActive.injEq] at this
        exact hw this
      simp [hne, hout, hw]
  | NextVersion =>
    have hout : kv.1 ∉ _ := fun hc => by
      have := hKmem.mp hc
      simp at this
    have hne : kv.1 ≠ (MvccKey.TxnActive st.version).encode := by
      intro hc
      exact absurd (hAct.mp hc) (by simp)
    simp [hne, hout]
  | Version k w =>
    have hout : kv.1 ∉ _ := fun hc => by
      have := hKmem.mp hc
      simp at this
    have hne : kv.1 ≠ (MvccKey.TxnActive st.version).encode := by
      intro hc
      exact absurd (hAct.mp hc) (by simp)
    simp [hne, hout]

theorem mvccRollback_eq (st : TransactionState) (eng : Store) :
    mvccRollback st eng =
      (engScanPfx (MvccKeyPfx.TxnWrite st.version).encode eng).bind (fun scanned =>
        (rollbackKeys st scanned).bind (fun deleteKeys =>
          Except.ok (storeErase (MvccKey.TxnActive st.version).encode
            (deleteKeys.foldl (fun e k => storeErase k e) eng)))) := rfl

theorem rollbackKeys_ok {st : TransactionState} (l : Store)
    (hdec : ∀ kv ∈ l, ∃ k w, decodeMvccKey kv.1 = some (.TxnWrite w k)) :
    ∃ K, rollbackKeys st l = .ok K ∧
      ∀ x, x ∈ K ↔ ((∃ kv ∈ l, x = kv.1) ∨
        (∃ kv ∈ l, ∃ k w, decodeMvccKey kv.1 = some (.TxnWrite w k) ∧
          x = (MvccKey.Version k st.version).encode)) := by
  induction l with
  | nil =>
    refine ⟨[], rfl, ?_⟩
    intro x
    simp
  | cons kv rest ih =>
    obtain ⟨k, w, hd⟩ := hdec kv (by simp)
    obtain ⟨K', hK', hiff'⟩ := ih (fun x hx => hdec x (by simp [hx]))
    refine ⟨(MvccKey.Version k st.version).encode :: kv.1 :: K', ?_, ?_⟩
    · show (match decodeMvccKey kv.1 with
        | some (.TxnWrite _ rawKey) =>
          match rollbackKeys st rest with
          | .ok r => Except.ok ((MvccKey.Version rawKey st.version).encode :: kv.1 :: r)
          | .error e => Except.error e
        | _ => Except.error Err.Internal) = _
      rw [hd, hK']
    · intro x
      simp only [List.mem_cons]
      constructor
      · rintro (rfl | rfl | hx)
        · exact Or.inr ⟨kv, by simp, k, w, hd, rfl⟩
        · exact Or.inl ⟨kv, by simp, rfl⟩
        · rcases (hiff' x).mp hx with ⟨kv', hkv', hx'⟩ | ⟨kv', hkv', k', w', hd', hx'⟩
          · exact Or.inl ⟨kv', by simp [hkv'], hx'⟩
          · exact Or.inr ⟨kv', by simp [hkv'], k', w', hd', hx'⟩
      · rintro (⟨kv', hkv', rfl⟩ | ⟨kv', hkv', k', w', hd', rfl⟩)
        · rcases hkv' with rfl | hkv''
          · exact Or.inr (Or.inl rfl)
          · exact Or.inr (Or.inr ((hiff' kv'.1).mpr (Or.inl ⟨kv', hkv'', rfl⟩)))
        · rcases hkv' with rfl | hkv''
          · rw [hd] at hd'
            simp only [Option.some_inj, MvccKey.TxnWrite.injEq] at hd'
            rw [← hd'.2]
            exact Or.inl rfl
          · exact Or.inr (Or.inr ((hiff' _).mpr (Or.inr ⟨kv', hkv'', k', w', hd', rfl⟩)))

theorem mvccRollback_char {st : TransactionState} {eng : Store} (hwf : WfStore eng)
    (hv : st.version < 256 ^ 8) (hmod : st.version % 256 ≠ 255)
    (hjournal : ∀ kv ∈ eng, ∀ k, decodeMvccKey kv.1 = some (.Version k st.version) →
      ∃ kv' ∈ eng, decodeMvccKey kv'.1 = some (.TxnWrite st.version k)) :
    mvccRollback st eng = .ok (eng.filter (fun kv =>
      match decodeMvccKey kv.1 with
      | some (.TxnWrite w _) => decide (w ≠ st.version)
      | some (.TxnActive w) => decide (w ≠ st.version)
      | some (.Version _ w) => decide (w ≠ st.version)
      | _ => true)) := by
  rw [mvccRollback_eq]
  have hvalid := rangeValid_txnWrite hv hmod
  have hscanok : engScanPfx (MvccKeyPfx.TxnWrite st.version).encode eng =
      .ok (storeScan (.incl (MvccKeyPfx.TxnWrite st.version).encode)
        (.excl (incLastByte (MvccKeyPfx.TxnWrite st.version).encode)) eng) := by
    unfold engScanPfx engScan
    rw [if_pos hvalid]
  rw [hscanok]
  simp only [Except.bind]
  rw [storeScan_txnWrite_range hv hmod hwf]
  set predW : Bytes × Bytes → Bool := fun kv =>
    match decodeMvccKey kv.1 with
    | some (.TxnWrite w _) => decide (w = st.version)
    | _ => false with hpredW
  have hdec : ∀ kv ∈ eng.filter predW, ∃ k w,
      decodeMvccKey kv.1 = some (.TxnWrite w k) := by
    intro kv hkv
    obtain ⟨hmem, hp⟩ := List.mem_filter.mp hkv
    obtain ⟨mk, hmk, _, _⟩ := wfEntry_decode (hwf kv hmem)
    rw [hpredW] at hp
    simp only [hmk] at hp
    match mk, hp with
    | .TxnWrite w k, _ => exact ⟨k, w, hmk⟩
  obtain ⟨K, hK, hKiff⟩ := @rollbackKeys_ok st (eng.filter predW) hdec
  rw [hK]
  simp only [Except.bind]
  congr 1
  rw [foldl_erase_filter]
  unfold storeErase
  rw [List.filter_filter]
  apply List.filter_congr
  intro kv hkv
  obtain ⟨mk, hmk, henc, hmkwf⟩ := wfEntry_decode (hwf kv hkv)
  have hAct := key_eq_txnActive_iff henc hmkwf hv
  have hKmem : kv.1 ∈ K ↔
      (∃ k, mk = .TxnWrite st.version k) ∨ (∃ k', mk = .Version k' st.version) := by
    rw [hKiff kv.1]
    constructor
    · rintro (⟨kv', hkv', hxeq⟩ | ⟨kv', hkv', k', w', hd', hxeq⟩)
      · left
        obtain ⟨_, hp'⟩ := List.mem_filter.mp hkv'
        rw [hpredW] at hp'
        have hpkv : (match decodeMvccKey kv.1 with
            | some (.TxnWrite w _) => decide (w = st.version)
            | _ => false) = true := by
          rw [hxeq]
          exact hp'
        simp only [hmk] at hpkv
        match mk, hpkv with
        | .TxnWrite w k, hpkv =>
          simp only [decide_eq_true_eq] at hpkv
          exact ⟨k, by rw [hpkv]⟩
      · right
        have hkb : ∀ b ∈ k', b < 256 := by
          obtain ⟨hmem', _⟩ := List.mem_filter.mp hkv'
          obtain ⟨mk', hmk', _, hmkwf'⟩ := wfEntry_decode (hwf kv' hmem')
          rw [hmk'] at hd'
          simp only [Option.some_inj] at hd'
          rw [hd'] at hmkwf'
          exact hmkwf'.2
        have hdec2 : decodeMvccKey kv.1 = some (.Version k' st.version) := by
          rw [hxeq]
          exact decodeMvccKey_encode (show mkWf (.Version k' st.version) from ⟨hv, hkb⟩)
        rw [hmk] at hdec2
        simp only [Option.some_inj] at hdec2
        exact ⟨k', hdec2⟩
    · rintro (⟨k, hmkeq⟩ | ⟨k', hmkeq⟩)
      · left
        refine ⟨kv, List.mem_filter.mpr ⟨hkv, ?_⟩, rfl⟩
        rw [hpredW]
        simp only [hmk, hmkeq]
        simp
      · right
        have hdkv : decodeMvccKey kv.1 = some (.Version k' st.version) := by
          rw [hmk, hmkeq]
        obtain ⟨kv', hkv', hd'⟩ := hjournal kv hkv k' hdkv
        refine ⟨kv', List.mem_filter.mpr ⟨hkv', ?_⟩, k', st.version, hd', ?_⟩
        · rw [hpredW]
          simp only [hd']
          simp
        · rw [henc, hmkeq]
  simp only [hmk] at hKmem ⊢
  cases mk with
  | TxnWrite w k =>
    have hne : kv.1 ≠ (MvccKey.TxnActive st.version).encode := by
      intro hc
      exact absurd (hAct.mp hc) (by simp)
    by_cases hw : w = st.version
    · subst hw
      have hin : kv.1 ∈ K := hKmem.mpr (Or.inl ⟨k, rfl⟩)
      simp [hne, hin]
    · have hout : kv.1 ∉ K := fun hc => by
        rcases hKmem.mp hc with ⟨k2, heq⟩ | ⟨k', heq⟩
        · simp only [MvccKey.TxnWrite.injEq] at heq
          exact hw heq.1
        · exact absurd heq (by simp)
      simp [hne, hout, hw]
  | TxnActive w =>
    have hout : kv.1 ∉ K := fun hc => by
      rcases hKmem.mp hc with ⟨k2, heq⟩ | ⟨k', heq⟩ <;> simp at heq
    by_cases hw : w = st.version
    · subst hw
      have heq : kv.1 = (MvccKey.TxnActive st.version).encode := hAct.mpr rfl
      simp [heq, hout]
    · have hne : kv.1 ≠ (MvccKey.TxnActive st.version).encode := by
        intro hc
        have := hAct.mp hc
        simp only [MvccKey.TxnActive.injEq] at this
        exact hw this
      simp [hne, hout, hw]
  | Version k w =>
    have hne : kv.1 ≠ (MvccKey.TxnActive st.version).encode := by
      intro hc
      exact absurd (hAct.mp hc) (by simp)
    by_cases hw : w = st.version
    · subst hw
      have hin : kv.1 ∈ K := hKmem.mpr (Or.inr ⟨k, rfl⟩)
      simp [hne, hin]
    · have hout : kv.1 ∉ K := fun hc => by
        rcases hKmem.mp hc with ⟨k2, heq⟩ | ⟨k', heq⟩
        · exact absurd heq (by simp)
        · simp only [MvccKey.Version.injEq] at heq
          exact hw heq.2
      simp [hne, hout, hw]
  | NextVersion =>
    have hout : kv.1 ∉ K := fun hc => by
      rcases hKmem.mp hc with ⟨k2, heq⟩ | ⟨k', heq⟩ <;> simp at heq
    have hne : kv.1 ≠ (MvccKey.TxnActive st.version).encode := by
      intro hc
      exact absurd (hAct.mp hc) (by simp)
    simp [hne, hout]

theorem mvccBegin_tail {eng : Store} (hwf : WfStore eng) (n : Nat) :
    (engScanPfx MvccKeyPfx.TxnActive.encode
      (storeInsert MvccKey.NextVersion.encode (serU64 (n + 1)) eng)).bind
      (fun scanned => (collectActive scanned).bind (fun active =>
        Except.ok ((⟨n, active⟩ : TransactionState),
          storeInsert (MvccKey.TxnActive n).encode []
            (storeInsert MvccKey.NextVersion.encode (serU64 (n + 1)) eng)))) =
    .ok (⟨n, activeOf eng⟩,
      storeInsert (MvccKey.TxnActive n).encode []
        (storeInsert MvccKey.NextVersion.encode (serU64 (n + 1)) eng)) := by
  have hins : ∀ w : Bytes, (fun kv => lowOk (.incl MvccKeyPfx.TxnActive.encode) kv.1 &&
      highOk (.excl (incLastByte MvccKeyPfx.TxnActive.encode)) kv.1)
      ((MvccKey.NextVersion.encode, w) : Bytes × Bytes) = false := by
    intro w
    rfl
  have hscanok : engScanPfx MvccKeyPfx.TxnActive.encode
      (storeInsert MvccKey.NextVersion.encode (serU64 (n + 1)) eng) =
      .ok (eng.filter (fun kv =>
        match decodeMvccKey kv.1 with
        | some (.TxnActive _) => true
        | _ => false)) := by
    unfold engScanPfx engScan
    rw [if_pos (by decide)]
    show Except.ok (storeScan _ _ _) = _
    congr 1
    show List.filter _ (storeInsert MvccKey.NextVersion.encode (serU64 (n + 1)) eng) = _
    rw [filter_storeInsert_of_neg hins]
    exact storeScan_txnActive_range hwf
  rw [hscanok]
  simp only [Except.bind]
  rw [collectActive_char hwf]

theorem mvccBegin_char {eng : Store} (hwf : WfStore eng)
    (hnext : ∀ val, storeGet MvccKey.NextVersion.encode eng = some val →
      (deserU64 val).isSome = true) :
    mvccBegin eng = .ok (⟨nextVerOf eng, activeOf eng⟩,
      storeInsert (MvccKey.TxnActive (nextVerOf eng)).encode []
        (storeInsert MvccKey.NextVersion.encode (serU64 (nextVerOf eng + 1)) eng)) := by
  unfold mvccBegin
  cases hget : storeGet MvccKey.NextVersion.encode eng with
  | none =>
    have hn1 : nextVerOf eng = 1 := by
      unfold nextVerOf
      rw [hget]
    simp only [hget]
    rw [hn1]
    exact mvccBegin_tail hwf 1
  | some val =>
    obtain ⟨n, hdes⟩ := Option.isSome_iff_exists.mp (hnext val hget)
    have hnn : nextVerOf eng = n := by
      unfold nextVerOf
      rw [hget]
      show (deserU64 val).getD 1 = n
      rw [hdes]
      rfl
    simp only [hget, hdes]
    rw [hnn]
    show (engScanPfx MvccKeyPfx.TxnActive.encode
      (storeInsert MvccKey.NextVersion.encode (serU64 (n + 1)) eng)).bind
      (fun scanned => (collectActive scanned).bind (fun active =>
        Except.ok ((⟨n, active⟩ : TransactionState),
          storeInsert (MvccKey.TxnActive n).encode []
            (storeInsert MvccKey.NextVersion.encode (serU64 (n + 1)) eng)))) = _
    exact mvccBegin_tail hwf n

/-! ## Lemmas about the derived `scan_prefix` -/

theorem incLastByte_snoc (q : Bytes) (b : Nat) :
    incLastByte (q ++ [b]) = q ++ [(b + 1) % 256] := by
  induction q with
  | nil => rfl
  | cons x xs ih =>
    rw [List.cons_append, incLastByte_cons (by simp), ih, List.cons_append]

theorem engScanPfx_char {b : Nat} (hb : b < 255) (q : Bytes) (s : Store) :
    engScanPfx (q ++ [b]) s =
      .ok (s.filter (fun kv => ble (q ++ [b]) kv.1 && blt kv.1 (q ++ [b + 1]))) := by
  unfold engScanPfx
  rw [incLastByte_snoc, Nat.mod_eq_of_lt (by omega)]
  unfold engScan
  rw [if_pos ?hv]
  case hv =>
    show ble (q ++ [b]) (q ++ [b + 1]) = true
    rw [ble_iff_not_blt, blt_append rfl]
    simp [blt]
  rfl

theorem engScanPfx_ff (q : Bytes) (s : Store) :
    engScanPfx (q ++ [255]) s = .error .Internal := by
  unfold engScanPfx
  rw [incLastByte_snoc]
  show engScan (.incl (q ++ [255])) (.excl (q ++ [0])) s = _
  unfold engScan
  rw [if_neg ?h]
  case h =>
    show ¬ (ble (q ++ [255]) (q ++ [0]) = true)
    unfold ble
    rw [blt_append rfl]
    simp [blt]

/-! ## Lemmas about the disk engine -/

theorem encodeEntry_some_length (k v : Bytes) :
    (encodeEntry k (some v)).length = 8 + k.length + v.length := by
  simp [encodeEntry, u32be, beBytes_length]
  omega

theorem encodeEntry_none_length (k : Bytes) :
    (encodeEntry k none).length = 8 + k.length := by
  simp [encodeEntry, u32be, beBytes_length]
  omega

theorem applyOps_log (e : DiskEngine) (ops : List (Bytes × Option Bytes)) :
    (applyOps e ops).log = e.log ++ logOf ops ∧
    (applyOps e ops).keydir = replay e.log.length e.keydir ops := by
  induction ops generalizing e with
  | nil => simp [applyOps, logOf, replay]
  | cons op rest ih =>
    obtain ⟨k, v⟩ := op
    cases v with
    | some v =>
      have happ : applyOps e ((k, some v) :: rest) = applyOps (diskSet e k v) rest := rfl
      rw [happ]
      obtain ⟨h1, h2⟩ := ih (diskSet e k v)
      constructor
      · rw [h1]
        show (e.log ++ encodeEntry k (some v)) ++ logOf rest = _
        rw [List.append_assoc]
        rfl
      · rw [h2]
        show replay (e.log ++ encodeEntry k (some v)).length
            (storeInsert k (e.log.length + (8 + k.length + v.length) - v.length, v.length)
              e.keydir) rest = _
        rw [List.length_append, encodeEntry_some_length]
        show _ = replay (e.log.length + 8 + k.length + v.length)
            (storeInsert k (e.log.length + 8 + k.length, v.length) e.keydir) rest
        have h3 : e.log.length + (8 + k.length + v.length) - v.length =
            e.log.length + 8 + k.length := by omega
        have h4 : e.log.length + (8 + k.length + v.length) =
            e.log.length + 8 + k.length + v.length := by omega
        rw [h3, h4]
    | none =>
      have happ : applyOps e ((k, none) :: rest) = applyOps (diskDelete e k) rest := rfl
      rw [happ]
      obtain ⟨h1, h2⟩ := ih (diskDelete e k)
      constructor
      · rw [h1]
        show (e.log ++ encodeEntry k none) ++ logOf rest = _
        rw [List.append_assoc]
        rfl
      · rw [h2]
        show replay (e.log ++ encodeEntry k none).length (storeErase k e.keydir) rest = _
        rw [List.length_append, encodeEntry_none_length]
        show _ = replay (e.log.length + 8 + k.length) (storeErase k e.keydir) rest
        have h4 : e.log.length + (8 + k.length) = e.log.length + 8 + k.length := by omega
        rw [h4]

theorem buildKeydirAux_stop {log : Bytes} {off : Nat} (h : log.length ≤ off) (kd : KeyDir) :
    buildKeydirAux log off kd = .ok kd := by
  rw [buildKeydirAux.eq_def, dif_pos h]

theorem buildKeydirAux_set {pre k v z : Bytes} (kd : KeyDir)
    (hk : k.length < 2 ^ 32) (hv : v.length < 2 ^ 31) :
    buildKeydirAux (pre ++ (encodeEntry k (some v) ++ z)) pre.length kd =
      buildKeydirAux (pre ++ (encodeEntry k (some v) ++ z))
        (pre.length + 8 + k.length + v.length)
        (storeInsert k (pre.length + 8 + k.length, v.length) kd) := by
  have hdrop : (pre ++ (encodeEntry k (some v) ++ z)).drop pre.length =
      encodeEntry k (some v) ++ z := List.drop_left _ _
  have hE : encodeEntry k (some v) ++ z =
      u32be k.length ++ (u32be v.length ++ (k ++ (v ++ z))) := by
    show (((u32be k.length ++ u32be v.length) ++ k) ++ v) ++ z = _
    simp [List.append_assoc]
  have h4k : (u32be k.length).length = 4 := beBytes_length 4 _
  have h4v : (u32be v.length).length = 4 := beBytes_length 4 _
  have htake4 : (encodeEntry k (some v) ++ z).take 4 = u32be k.length := by
    rw [hE, ← h4k, List.take_left]
  have hdrop4 : (encodeEntry k (some v) ++ z).drop 4 =
      u32be v.length ++ (k ++ (v ++ z)) := by
    rw [hE, ← h4k, List.drop_left]
  have htakev : (u32be v.length ++ (k ++ (v ++ z))).take 4 = u32be v.length := by
    rw [← h4v, List.take_left]
  have hdrop8 : (encodeEntry k (some v) ++ z).drop 8 = k ++ (v ++ z) := by
    have hd : (encodeEntry k (some v) ++ z).drop 8 =
        ((encodeEntry k (some v) ++ z).drop 4).drop 4 := by rw [List.drop_drop]
    rw [hd, hdrop4, ← h4v, List.drop_left]
  have hks : fromBE ((encodeEntry k (some v) ++ z).take 4) = k.length := by
    rw [htake4]
    exact fromBE_beBytes (by norm_num at hk ⊢; omega)
  have hvs : fromBE (u32be v.length) = v.length :=
    fromBE_beBytes (by norm_num at hv ⊢; omega)
  have hlen0 : (encodeEntry k (some v)).length = 8 + k.length + v.length :=
    encodeEntry_some_length k v
  have hlen : ¬ ((pre ++ (encodeEntry k (some v) ++ z)).length ≤ pre.length) := by
    simp [List.length_append, hlen0]
  rw [buildKeydirAux.eq_def, dif_neg hlen]
  simp only [hdrop, hks, hdrop4, htakev, hvs, hdrop8]
  have hshort : ¬ ((encodeEntry k (some v) ++ z).length < 8 + k.length) := by
    simp [List.length_append, hlen0]
    omega
  rw [dif_neg hshort]
  rw [if_neg (by omega : ¬ (v.length = 4294967295))]
  rw [if_pos (by norm_num at hv ⊢; omega : v.length < 2147483648)]
  rw [List.take_left]

theorem buildKeydirAux_del {pre k z : Bytes} (kd : KeyDir) (hk : k.length < 2 ^ 32) :
    buildKeydirAux (pre ++ (encodeEntry k none ++ z)) pre.length kd =
      buildKeydirAux (pre ++ (encodeEntry k none ++ z)) (pre.length + 8 + k.length)
        (storeErase k kd) := by
  have hdrop : (pre ++ (encodeEntry k none ++ z)).drop pre.length =
      encodeEntry k none ++ z := List.drop_left _ _
  have hE : encodeEntry k none ++ z =
      u32be k.length ++ (([255, 255, 255, 255] : Bytes) ++ (k ++ z)) := by
    show (((u32be k.length ++ [255, 255, 255, 255]) ++ k) ++ []) ++ z = _
    simp [List.append_assoc]
  have h4k : (u32be k.length).length = 4 := beBytes_length 4 _
  have h4f : ([255, 255, 255, 255] : Bytes).length = 4 := rfl
  have htake4 : (encodeEntry k none ++ z).take 4 = u32be k.length := by
    rw [hE, ← h4k, List.take_left]
  have hdrop4 : (encodeEntry k none ++ z).drop 4 =
      ([255, 255, 255, 255] : Bytes) ++ (k ++ z) := by
    rw [hE, ← h4k, List.drop_left]
  have htakev : (([255, 255, 255, 255] : Bytes) ++ (k ++ z)).take 4 =
      ([255, 255, 255, 255] : Bytes) := by
    rw [← h4f, List.take_left]
  have hdrop8 : (encodeEntry k none ++ z).drop 8 = k ++ z := by
    have hd : (encodeEntry k none ++ z).drop 8 =
        ((encodeEntry k none ++ z).drop 4).drop 4 := by rw [List.drop_drop]
    rw [hd, hdrop4, ← h4f, List.drop_left]
  have hks : fromBE ((encodeEntry k none ++ z).take 4) = k.length := by
    rw [htake4]
    exact fromBE_beBytes (by norm_num at hk ⊢; omega)
  have hvs : fromBE ([255, 255, 255, 255] : Bytes) = 4294967295 := rfl
  have hlen0 : (encodeEntry k none).length = 8 + k.length := encodeEntry_none_length k
  have hlen : ¬ ((pre ++ (encodeEntry k none ++ z)).length ≤ pre.length) := by
    simp [List.length_append, hlen0]
  rw [buildKeydirAux.eq_def, dif_neg hlen]
  simp only [hdrop, hks, hdrop4, htakev, hvs, hdrop8]
  have hshort : ¬ ((encodeEntry k none ++ z).length < 8 + k.length) := by
    simp [List.length_append, hlen0]
  rw [dif_neg hshort]
  rw [if_pos trivial]
  rw [List.take_left]

theorem buildKeydirAux_app (ops : List (Bytes × Option Bytes)) :
    ∀ (pre : Bytes) (kd : KeyDir),
    (∀ op ∈ ops, op.1.length < 2 ^ 32 ∧ ∀ v, op.2 = some v → v.length < 2 ^ 31) →
    buildKeydirAux (pre ++ logOf ops) pre.length kd = .ok (replay pre.length kd ops) := by
  induction ops with
  | nil =>
    intro pre kd _
    show buildKeydirAux (pre ++ []) pre.length kd = .ok kd
    rw [List.append_nil]
    exact buildKeydirAux_stop (le_refl _) kd
  | cons op rest ih =>
    obtain ⟨k, v⟩ := op
    intro pre kd hops
    have hop := hops (k, v) (by simp)
    have hrest : ∀ op ∈ rest, op.1.length < 2 ^ 32 ∧
        ∀ v, op.2 = some v → v.length < 2 ^ 31 := by
      intro o ho
      exact hops o (by simp [ho])
    cases v with
    | some v =>
      show buildKeydirAux (pre ++ (encodeEntry k (some v) ++ logOf rest)) pre.length kd =
        .ok (replay (pre.length + 8 + k.length + v.length)
          (storeInsert k (pre.length + 8 + k.length, v.length) kd) rest)
      rw [buildKeydirAux_set kd hop.1 (hop.2 v rfl)]
      have hassoc : pre ++ (encodeEntry k (some v) ++ logOf rest) =
          (pre ++ encodeEntry k (some v)) ++ logOf rest := (List.append_assoc _ _ _).symm
      have hlen : pre.length + 8 + k.length + v.length =
          (pre ++ encodeEntry k (some v)).length := by
        rw [List.length_append, encodeEntry_some_length]
        omega
      rw [hassoc, hlen]
      exact ih (pre ++ encodeEntry k (some v)) _ hrest
    | none =>
      show buildKeydirAux (pre ++ (encodeEntry k none ++ logOf rest)) pre.length kd =
        .ok (replay (pre.length + 8 + k.length) (storeErase k kd) rest)
      rw [buildKeydirAux_del kd hop.1]
      have hassoc : pre ++ (encodeEntry k none ++ logOf rest) =
          (pre ++ encodeEntry k none) ++ logOf rest := (List.append_assoc _ _ _).symm
      have hlen : pre.length + 8 + k.length = (pre ++ encodeEntry k none).length := by
        rw [List.length_append, encodeEntry_none_length]
        omega
      rw [hassoc, hlen]
      exact ih (pre ++ encodeEntry k none) _ hrest

theorem scanAllAux_ok {log : Bytes} (kd : KeyDir)
    (h : ∀ kv ∈ kd, kv.2.1 + kv.2.2 ≤ log.length) :
    scanAllAux log kd =
      .ok (kd.map (fun kv => (kv.1, (log.drop kv.2.1).take kv.2.2))) := by
  induction kd with
  | nil => rfl
  | cons kv rest ih =>
    obtain ⟨k, off, size⟩ := kv
    have h1 : off + size ≤ log.length := h (k, off, size) (by simp)
    have hrv : readValue log off size = .ok ((log.drop off).take size) := by
      unfold readValue
      rw [if_pos h1]
    show (match readValue log off size with
      | .ok v =>
        match scanAllAux log rest with
        | .ok r => Except.ok ((k, v) :: r)
        | .error e => Except.error e
      | .error e => Except.error e) = _
    rw [hrv, ih (fun kv hkv => h kv (by simp [hkv]))]
    rfl

theorem compactAux_char {log : Bytes} (kd : KeyDir) :
    ∀ (newLog : Bytes) (newKd : KeyDir),
    (∀ kv ∈ kd, kv.2.1 + kv.2.2 ≤ log.length) →
    compactAux log kd newLog newKd =
      .ok (newLog ++
          logOf (kd.map (fun kv => (kv.1, some ((log.drop kv.2.1).take kv.2.2)))),
        replay newLog.length newKd
          (kd.map (fun kv => (kv.1, some ((log.drop kv.2.1).take kv.2.2))))) := by
  induction kd with
  | nil =>
    intro newLog newKd _
    show Except.ok (newLog, newKd) = _
    rw [List.map_nil]
    show _ = Except.ok (newLog ++ [], newKd)
    rw [List.append_nil]
  | cons kv rest ih =>
    obtain ⟨k, off, size⟩ := kv
    intro newLog newKd h
    have h1 : off + size ≤ log.length := h (k, off, size) (by simp)
    have hrv : readValue log off size = .ok ((log.drop off).take size) := by
      unfold readValue
      rw [if_pos h1]
    have hvlen : ((log.drop off).take size).length = size := by
      rw [List.length_take, List.length_drop]
      omega
    show (match readValue log off size with
      | .ok v =>
        compactAux log rest (newLog ++ encodeEntry k (some v))
          (storeInsert k (newLog.length + (8 + k.length + v.length) - size, size) newKd)
      | .error e => Except.error e) = _
    rw [hrv]
    show compactAux log rest (newLog ++ encodeEntry k (some ((log.drop off).take size)))
        (storeInsert k
          (newLog.length + (8 + k.length + ((log.drop off).take size).length) - size, size)
          newKd) = _
    rw [ih _ _ (fun kv hkv => h kv (by simp [hkv]))]
    rw [hvlen]
    have harith : newLog.length + (8 + k.length + size) - size =
        newLog.length + 8 + k.length := by omega
    rw [harith]
    have hlenE : (newLog ++ encodeEntry k (some ((log.drop off).take size))).length =
        newLog.length + 8 + k.length + size := by
      rw [List.length_append, encodeEntry_some_length, hvlen]
      omega
    rw [hlenE]
    show Except.ok ((newLog ++ encodeEntry k (some ((log.drop off).take size))) ++
        logOf (rest.map (fun kv => (kv.1, some ((log.drop kv.2.1).take kv.2.2)))), _) = _
    rw [List.append_assoc]
    show _ = Except.ok (newLog ++
        (encodeEntry k (some ((log.drop off).take size)) ++
          logOf (rest.map (fun kv => (kv.1, some ((log.drop kv.2.1).take kv.2.2))))),
      replay (newLog.length + 8 + k.length + ((log.drop off).take size).length)
        (storeInsert k (newLog.length + 8 + k.length, ((log.drop off).take size).length)
          newKd)
        (rest.map (fun kv => (kv.1, some ((log.drop kv.2.1).take kv.2.2)))))
    rw [hvlen]

theorem storeInsert_append_gt {α : Type} {k : Bytes} {l : List (Bytes × α)} (v : α)
    (h : ∀ x ∈ l, blt x.1 k = true) :
    storeInsert k v l = l ++ [(k, v)] := by
  induction l with
  | nil => rfl
  | cons kv rest ih =>
    obtain ⟨k', v'⟩ := kv
    have hk' : blt k' k = true := h (k', v') (by simp)
    show (if blt k k' then (k, v) :: (k', v') :: rest
      else if k = k' then (k, v) :: rest else (k', v') :: storeInsert k v rest) = _
    rw [if_neg (by rw [blt_asymm hk']; simp)]
    rw [if_neg (by intro he; rw [he] at hk'; rw [blt_irrefl] at hk'; exact absurd hk' (by simp))]
    rw [ih (fun x hx => h x (by simp [hx]))]
    rfl

theorem replay_liveKd {ops : List (Bytes × Option Bytes)} :
    ∀ (off : Nat) (kd : KeyDir),
    (∀ op ∈ ops, op.2.isSome = true) →
    (∀ kv ∈ kd, ∀ op ∈ ops, blt kv.1 op.1 = true) →
    List.Pairwise (fun a b => blt a.1 b.1 = true) ops →
    replay off kd ops = kd ++ liveKd off ops := by
  induction ops with
  | nil =>
    intro off kd _ _ _
    show kd = kd ++ []
    rw [List.append_nil]
  | cons op rest ih =>
    obtain ⟨k, v⟩ := op
    intro off kd hall hgt hsort
    cases v with
    | none => exact absurd (hall (k, none) (by simp)) (by simp)
    | some v =>
      show replay (off + 8 + k.length + v.length)
          (storeInsert k (off + 8 + k.length, v.length) kd) rest = _
      rw [storeInsert_append_gt _ (fun x hx => hgt x hx (k, some v) (by simp))]
      rw [ih (off + 8 + k.length + v.length) _
        (fun o ho => hall o (by simp [ho]))
        (by
          intro kv hkv o ho
          rcases List.mem_append.mp hkv with hkv | hkv
          · exact hgt kv hkv o (by simp [ho])
          · rcases List.mem_singleton.mp hkv with rfl
            exact (List.pairwise_cons.mp hsort).1 o ho)
        (List.pairwise_cons.mp hsort).2]
      rw [List.append_assoc]
      rfl

theorem scanAllAux_liveKd {ops : List (Bytes × Option Bytes)} :
    ∀ pre : Bytes,
    (∀ op ∈ ops, op.2.isSome = true) →
    scanAllAux (pre ++ logOf ops) (liveKd pre.length ops) =
      .ok (ops.map (fun op => (op.1, op.2.getD []))) := by
  induction ops with
  | nil =>
    intro pre _
    rfl
  | cons op rest ih =>
    obtain ⟨k, v⟩ := op
    intro pre hall
    cases v with
    | none => exact absurd (hall (k, none) (by simp)) (by simp)
    | some v =>
      have hX : pre ++ logOf ((k, some v) :: rest) =
          (((pre ++ u32be k.length) ++ u32be v.length) ++ k) ++ (v ++ logOf rest) := by
        show pre ++ ((((u32be k.length ++ u32be v.length) ++ k) ++ v) ++ logOf rest) = _
        simp [List.append_assoc]
      have hXlen : ((((pre ++ u32be k.length) ++ u32be v.length) ++ k)).length =
          pre.length + 8 + k.length := by
        simp [List.length_append, u32be, beBytes_length]
        omega
      have hrv : readValue (pre ++ logOf ((k, some v) :: rest))
          (pre.length + 8 + k.length) v.length = .ok v := by
        unfold readValue
        rw [if_pos ?hle]
        case hle =>
          rw [hX]
          simp [List.length_append, u32be, beBytes_length]
          omega
        rw [hX, ← hXlen, List.drop_left, List.take_left]
      show (match readValue (pre ++ logOf ((k, some v) :: rest))
          (pre.length + 8 + k.length) v.length with
        | .ok w =>
          match scanAllAux (pre ++ logOf ((k, some v) :: rest))
              (liveKd (pre.length + 8 + k.length + v.length) rest) with
          | .ok r => Except.ok ((k, w) :: r)
          | .error e => Except.error e
        | .error e => Except.error e) = _
      rw [hrv]
      have hlog : pre ++ logOf ((k, some v) :: rest) =
          (pre ++ encodeEntry k (some v)) ++ logOf rest := by
        show pre ++ (encodeEntry k (some v) ++ logOf rest) = _
        rw [List.append_assoc]
      have hoff : pre.length + 8 + k.length + v.length =
          (pre ++ encodeEntry k (some v)).length := by
        rw [List.length_append, encodeEntry_some_length]
        omega
      rw [hlog, hoff, ih (pre ++ encodeEntry k (some v))
        (fun o ho => hall o (by simp [ho]))]
      rfl

theorem compact_char {e : DiskEngine} (hs : sortedKeys e.keydir)
    (hread : ∀ kv ∈ e.keydir, kv.2.1 + kv.2.2 ≤ e.log.length) :
    compact e = .ok
      ⟨liveKd 0 (e.keydir.map (fun kv => (kv.1, some ((e.log.drop kv.2.1).take kv.2.2)))),
       logOf (e.keydir.map (fun kv => (kv.1, some ((e.log.drop kv.2.1).take kv.2.2))))⟩ := by
  unfold compact
  have hpw : List.Pairwise (fun a b => blt a.1 b.1 = true)
      (e.keydir.map (fun kv => (kv.1, some ((e.log.drop kv.2.1).take kv.2.2)))) := by
    rw [List.pairwise_map]
    exact hs
  rw [compactAux_char e.keydir [] [] hread]
  show Except.ok
      (⟨replay ([] : Bytes).length []
          (e.keydir.map (fun kv => (kv.1, some ((e.log.drop kv.2.1).take kv.2.2)))),
        [] ++ logOf (e.keydir.map (fun kv => (kv.1, some ((e.log.drop kv.2.1).take kv.2.2))))⟩ :
        DiskEngine) = _
  rw [List.nil_append]
  rw [replay_liveKd ([] : Bytes).length []
    (by
      intro o ho
      obtain ⟨kv, _, rfl⟩ := List.mem_map.mp ho
      rfl)
    (by intro kv hkv; exact absurd hkv (List.not_mem_nil kv))
    hpw]
  rw [List.nil_append]
  rfl

theorem compact_scanAll {e : DiskEngine} (hs : sortedKeys e.keydir)
    (hread : ∀ kv ∈ e.keydir, kv.2.1 + kv.2.2 ≤ e.log.length) :
    ∃ e', compact e = .ok e' ∧
      e'.log = logOf (e.keydir.map (fun kv => (kv.1, some ((e.log.drop kv.2.1).take kv.2.2)))) ∧
      scanAll e' = scanAll e := by
  refine ⟨_, compact_char hs hread, rfl, ?_⟩
  show scanAllAux
      (logOf (e.keydir.map (fun kv => (kv.1, some ((e.log.drop kv.2.1).take kv.2.2)))))
      (liveKd 0 (e.keydir.map (fun kv => (kv.1, some ((e.log.drop kv.2.1).take kv.2.2))))) =
    scanAll e
  have hlkd := @scanAllAux_liveKd
    (e.keydir.map (fun kv => (kv.1, some ((e.log.drop kv.2.1).take kv.2.2)))) []
    (by
      intro o ho
      obtain ⟨kv, _, rfl⟩ := List.mem_map.mp ho
      rfl)
  rw [List.nil_append] at hlkd
  show scanAllAux _ (liveKd ([] : Bytes).length _) = scanAll e
  rw [hlkd]
  show _ = scanAllAux e.log e.keydir
  rw [scanAllAux_ok e.keydir hread, List.map_map]
  rfl

/-! ## The claims -/

/-- C1: `TransactionState::is_visible(T, v)` is true exactly when
`v ≤ T.version` and `v` is not in `T.active_set`.  (Amended: the spec's extra
disjunct `v == T.version` is not redundant for arbitrary states — when the
own version sits in the active set the code returns `false`, so the claimed
equivalence fails; the correct condition drops the disjunct.) -/
theorem C1_is_visible (st : TransactionState) (v : Nat) :
    st.isVisible v = true ↔ (v ≤ st.version ∧ v ∉ st.active_versions) := by
  unfold TransactionState.isVisible
  by_cases hc : st.active_versions.contains v
  · rw [if_pos hc]
    constructor
    · intro h
      exact absurd h (by simp)
    · intro h
      exact absurd (by simpa using hc) h.2
  · rw [if_neg hc]
    constructor
    · intro h
      exact ⟨of_decide_eq_true h, by simpa using hc⟩
    · intro h
      exact decide_eq_true h.1

/-- C1 counterexample: for the state with version 1 and active set `{1}`,
`is_visible 1` is `false` although the claimed disjunction
`v == T.version ∨ (v ≤ T.version ∧ v ∉ active)` holds. -/
theorem C1_is_visible_cex :
    (⟨1, [1]⟩ : TransactionState).isVisible 1 = false ∧
    (1 = (⟨1, [1]⟩ : TransactionState).version ∨
      (1 ≤ (⟨1, [1]⟩ : TransactionState).version ∧
        1 ∉ (⟨1, [1]⟩ : TransactionState).active_versions)) :=
  ⟨rfl, Or.inl rfl⟩

/-- C2: `write_inner` (the body of `set` and `delete`) scans
`Version(key, lo) ..= Version(key, u64::MAX)` with `lo` the minimum active
version (or `T.version + 1` when the active set is empty) and fails with
`WriteConflict` — writing nothing — exactly when the newest record in that
range carries a version not visible to `T`.  `confEntries` is the stored
entries in that scan range and `confLo` is `lo`. -/
theorem C2_write_conflict {st : TransactionState} {key : Bytes}
    {value : Option Bytes} {eng : Store} (hwf : WfStore eng)
    (hv1 : st.version + 1 < 256 ^ 8) (hact : ∀ a ∈ st.active_versions, a < 256 ^ 8) :
    writeInner st key value eng = .error .WriteConflict ↔
      ∃ kv, (confEntries st key eng).getLast? = some kv ∧
        ∃ rk w, decodeMvccKey kv.1 = some (.Version rk w) ∧ st.isVisible w = false :=
  writeInner_conflict_char hwf hv1 hact

/-- C2 witness: transaction 2, begun while transaction 1 was active, attempts
`set` on the key transaction 1 wrote; the attempt fails with `WriteConflict`. -/
theorem C2_write_conflict_witness :
    writeInner ⟨2, [1]⟩ [10] (some [2])
      [(MvccKey.NextVersion.encode, serU64 3),
       ((MvccKey.TxnActive 1).encode, []),
       ((MvccKey.TxnActive 2).encode, []),
       ((MvccKey.TxnWrite 1 [10]).encode, []),
       ((MvccKey.Version [10] 1).encode, serOpt (some [1]))] = .error .WriteConflict :=
  (C2_write_conflict (by decide) (by norm_num) (by norm_num)).mpr
    ⟨((MvccKey.Version [10] 1).encode, serOpt (some [1])), rfl, [10], 1, rfl, rfl⟩

/-- C3: `get` returns the decoded payload of the newest version visible to the
transaction (`None` when the payload is a per-version deletion or no visible
version exists), and within one transaction a successful `set`/`delete` of a
key is immediately observable: `get` returns exactly the written payload. -/
theorem C3_get {st : TransactionState} {key : Bytes} {value : Option Bytes}
    {eng : Store} (hwf : WfStore eng) (hs : sortedKeys eng)
    (hnact : st.version ∉ st.active_versions) (hv : st.version < 256 ^ 8)
    (hkey : ∀ b ∈ key, b < 256) (hlen : (value.getD []).length < 256 ^ 8) :
    mvccGet st key eng = .ok ((visEntries st key eng).getLast?.bind
      (fun kv => (deserOpt kv.2).getD none)) ∧
    ∀ eng', writeInner st key value eng = .ok eng' →
      mvccGet st key eng' = .ok value := by
  refine ⟨mvccGet_char hwf hv, fun eng' hw => ?_⟩
  refine writeInner_get hs hnact hv hkey ?_ hw
  intro v hv'
  rw [hv'] at hlen
  exact hlen

/-- C3 witness: on the store right after `begin` of transaction 1, `get` of
key `[10]` reads the newest visible version, and a successful `set` of that
key is read back by `get`. -/
theorem C3_get_witness :
    mvccGet ⟨1, []⟩ [10]
      [(MvccKey.NextVersion.encode, serU64 2), ((MvccKey.TxnActive 1).encode, [])] =
      .ok ((visEntries ⟨1, []⟩ [10]
        [(MvccKey.NextVersion.encode, serU64 2),
         ((MvccKey.TxnActive 1).encode, [])]).getLast?.bind
          (fun kv => (deserOpt kv.2).getD none)) ∧
    ∀ eng', writeInner ⟨1, []⟩ [10] (some [9])
      [(MvccKey.NextVersion.encode, serU64 2), ((MvccKey.TxnActive 1).encode, [])] =
        .ok eng' →
      mvccGet ⟨1, []⟩ [10] eng' = .ok (some [9]) :=
  C3_get (by decide) (by decide) (by decide) (by norm_num) (by decide) (by norm_num)

/-- C4: `begin` allocates version `n` from the stored `NextVersion`
(defaulting to 1), persists `NextVersion = n + 1`, snapshots the set of
stored `TxnActive` markers as the active set, and then writes `TxnActive(n)`.
(Amended: the active set is captured *before* the own marker is inserted, so
it does **not** include the transaction's own version, contrary to the
claim's final clause.) -/
theorem C4_begin {eng : Store} (hwf : WfStore eng)
    (hnext : ∀ val, storeGet MvccKey.NextVersion.encode eng = some val →
      (deserU64 val).isSome = true) :
    mvccBegin eng = .ok (⟨nextVerOf eng, activeOf eng⟩,
      storeInsert (MvccKey.TxnActive (nextVerOf eng)).encode []
        (storeInsert MvccKey.NextVersion.encode (serU64 (nextVerOf eng + 1)) eng)) :=
  mvccBegin_char hwf hnext

/-- C4 witness: `begin` on the empty store allocates version 1, persists
`NextVersion = 2`, and writes the `TxnActive(1)` marker. -/
theorem C4_begin_witness :
    mvccBegin [] = .ok (⟨nextVerOf [], activeOf []⟩,
      storeInsert (MvccKey.TxnActive (nextVerOf [])).encode []
        (storeInsert MvccKey.NextVersion.encode (serU64 (nextVerOf [] + 1)) [])) :=
  C4_begin (by decide) (by intro val h; simp [storeGet] at h)

/-- C4 counterexample: `begin` on the empty store returns version 1 with the
empty active set — the active set does not include the transaction's own
version, contrary to the claim. -/
theorem C4_begin_cex :
    mvccBegin [] = .ok (⟨1, []⟩,
      [(MvccKey.NextVersion.encode, serU64 2), ((MvccKey.TxnActive 1).encode, [])]) ∧
    (1 : Nat) ∉ ([] : List Nat) :=
  ⟨rfl, by simp⟩

/-- C5: for a non-empty prefix whose final byte is below `0xff`, the derived
`Engine::scan_prefix` returns exactly the stored pairs with key at least the
prefix and strictly below the prefix with its final byte incremented, in
ascending key order.  (Amended: there is no all-`0xff` end-of-range case in
the code — incrementing a final `0xff` byte wraps, producing an inverted
range on which `BTreeMap::range` panics, modelled as an internal error.) -/
theorem C5_scan_pfx {q : Bytes} {b : Nat} {s : Store} (hb : b < 255)
    (hs : sortedKeys s) :
    engScanPfx (q ++ [b]) s =
      .ok (s.filter (fun kv => ble (q ++ [b]) kv.1 && blt kv.1 (q ++ [b + 1]))) ∧
    sortedKeys (s.filter (fun kv => ble (q ++ [b]) kv.1 && blt kv.1 (q ++ [b + 1]))) :=
  ⟨engScanPfx_char hb q s, hs.filter _⟩

/-- C5 witness: scanning the prefix `[10, 3]` over a singleton store returns
exactly the pairs between the prefix and its increment. -/
theorem C5_scan_pfx_witness :
    engScanPfx ([10] ++ [3]) [([10, 3], [1])] =
      .ok (([([10, 3], [1])] : Store).filter
        (fun kv => ble ([10] ++ [3]) kv.1 && blt kv.1 ([10] ++ [3 + 1]))) ∧
    sortedKeys (([([10, 3], [1])] : Store).filter
      (fun kv => ble ([10] ++ [3]) kv.1 && blt kv.1 ([10] ++ [3 + 1]))) :=
  C5_scan_pfx (by norm_num) (by decide)

/-- C5 counterexample: on the all-`0xff` prefix `[0xff]` the scan fails with
an internal error (the incremented bound wraps to `[0x00]` and the range is
inverted) instead of returning the stored pair at and above the prefix as the
spec's end-of-range reading predicts. -/
theorem C5_scan_pfx_cex :
    engScanPfx [255] [([255], [7])] = .error .Internal ∧
    specScanToEnd [255] [([255], [7])] = [([255], [7])] :=
  ⟨rfl, rfl⟩

/-- C10: the derived `Engine::scan_prefix` on the empty prefix returns no
entries: both bounds of the derived range are the empty byte string (there is
no final byte to increment), so the half-open range is empty rather than the
full key space. -/
theorem C10_empty_pfx (s : Store) : engScanPfx [] s = .ok [] := by
  unfold engScanPfx engScan
  rw [if_pos (show rangeValid (.incl []) (.excl (incLastByte [])) = true from rfl)]
  show Except.ok (storeScan (.incl []) (.excl (incLastByte [])) s) = _
  congr 1
  unfold storeScan
  rw [List.filter_eq_nil_iff]
  intro kv _
  simp [lowOk, highOk, incLastByte, blt_nil_right]

/-- C6: when `rollback` returns successfully, the resulting store is the old
store with every `Version(k, T.version)` entry, every
`TxnWrite(T.version, k)` entry, and the `TxnActive(T.version)` marker
removed, and every other entry untouched — so the pre-existing snapshot stays
observable.  The journal hypothesis states that every `Version` entry written
at `T.version` has its `TxnWrite` journal record, as `write_inner`
guarantees. -/
theorem C6_rollback {st : TransactionState} {eng eng' : Store} (hwf : WfStore eng)
    (hv : st.version < 256 ^ 8)
    (hjournal : ∀ kv ∈ eng, ∀ k, decodeMvccKey kv.1 = some (.Version k st.version) →
      ∃ kv' ∈ eng, decodeMvccKey kv'.1 = some (.TxnWrite st.version k))
    (h : mvccRollback st eng = .ok eng') :
    eng' = eng.filter (fun kv =>
      match decodeMvccKey kv.1 with
      | some (.TxnWrite w _) => decide (w ≠ st.version)
      | some (.TxnActive w) => decide (w ≠ st.version)
      | some (.Version _ w) => decide (w ≠ st.version)
      | _ => true) := by
  by_cases hmod : st.version % 256 = 255
  · rw [mvccRollback_eq, txnWrite_scan_err hmod] at h
    exact Except.noConfusion h
  · rw [mvccRollback_char hwf hv hmod hjournal] at h
    exact (Except.ok.inj h).symm

/-- C6 witness: transaction 2 wrote key `[10]`; rolling back deletes its
`Version`, `TxnWrite` and `TxnActive` entries, leaving only `NextVersion`. -/
theorem C6_rollback_witness :
    ([(MvccKey.NextVersion.encode, serU64 3)] : Store) =
      ([(MvccKey.NextVersion.encode, serU64 3),
        ((MvccKey.TxnActive 2).encode, []),
        ((MvccKey.TxnWrite 2 [10]).encode, []),
        ((MvccKey.Version [10] 2).encode, serOpt (some [7]))] : Store).filter
        (fun kv =>
          match decodeMvccKey kv.1 with
          | some (.TxnWrite w _) => decide (w ≠ (⟨2, []⟩ : TransactionState).version)
          | some (.TxnActive w) => decide (w ≠ (⟨2, []⟩ : TransactionState).version)
          | some (.Version _ w) => decide (w ≠ (⟨2, []⟩ : TransactionState).version)
          | _ => true) :=
  @C6_rollback ⟨2, []⟩
    [(MvccKey.NextVersion.encode, serU64 3),
     ((MvccKey.TxnActive 2).encode, []),
     ((MvccKey.TxnWrite 2 [10]).encode, []),
     ((MvccKey.Version [10] 2).encode, serOpt (some [7]))]
    [(MvccKey.NextVersion.encode, serU64 3)] (by decide) (by norm_num)
    (by
      intro kv hkv k hk
      simp only [List.mem_cons, List.not_mem_nil, or_false] at hkv
      rcases hkv with rfl | rfl | rfl | rfl
      · rw [show decodeMvccKey (MvccKey.NextVersion.encode, serU64 3).1 =
            some MvccKey.NextVersion from rfl] at hk
        simp at hk
      · rw [show decodeMvccKey ((MvccKey.TxnActive 2).encode, ([] : Bytes)).1 =
            some (MvccKey.TxnActive 2) from rfl] at hk
        simp at hk
      · rw [show decodeMvccKey ((MvccKey.TxnWrite 2 [10]).encode, ([] : Bytes)).1 =
            some (MvccKey.TxnWrite 2 [10]) from rfl] at hk
        simp at hk
      · rw [show decodeMvccKey ((MvccKey.Version [10] 2).encode, serOpt (some [7])).1 =
            some (MvccKey.Version [10] 2) from rfl] at hk
        simp only [Option.some.injEq, MvccKey.Version.injEq] at hk
        obtain ⟨hk1, _⟩ := hk
        subst hk1
        exact ⟨((MvccKey.TxnWrite 2 [10]).encode, []), by simp, rfl⟩)
    (by rfl)

/-- C7: `commit` deletes every `TxnWrite(T.version, *)` entry and the
`TxnActive(T.version)` marker and leaves every other entry — in particular
the transaction's `Version(k, T.version)` data entries — unchanged.
(Amended: this holds only when `T.version % 256 ≠ 255`; otherwise the
incremented final byte of the `TxnWrite` prefix wraps, the scan range is
inverted, and `commit` fails without deleting anything.) -/
theorem C7_commit {st : TransactionState} {eng : Store} (hwf : WfStore eng)
    (hv : st.version < 256 ^ 8) (hmod : st.version % 256 ≠ 255) :
    mvccCommit st eng = .ok (eng.filter (fun kv =>
      match decodeMvccKey kv.1 with
      | some (.TxnWrite w _) => decide (w ≠ st.version)
      | some (.TxnActive w) => decide (w ≠ st.version)
      | _ => true)) :=
  mvccCommit_char hwf hv hmod

/-- C7 witness: committing transaction 2 deletes its `TxnWrite` and
`TxnActive` entries and keeps `NextVersion` and its `Version` data entry. -/
theorem C7_commit_witness :
    mvccCommit ⟨2, []⟩
      [(MvccKey.NextVersion.encode, serU64 3),
       ((MvccKey.TxnActive 2).encode, []),
       ((MvccKey.TxnWrite 2 [10]).encode, []),
       ((MvccKey.Version [10] 2).encode, serOpt (some [7]))] =
      .ok (([(MvccKey.NextVersion.encode, serU64 3),
        ((MvccKey.TxnActive 2).encode, []),
        ((MvccKey.TxnWrite 2 [10]).encode, []),
        ((MvccKey.Version [10] 2).encode, serOpt (some [7]))] : Store).filter
        (fun kv =>
          match decodeMvccKey kv.1 with
          | some (.TxnWrite w _) => decide (w ≠ (⟨2, []⟩ : TransactionState).version)
          | some (.TxnActive w) => decide (w ≠ (⟨2, []⟩ : TransactionState).version)
          | _ => true)) :=
  C7_commit (by decide) (by norm_num) (by norm_num)

/-- C7 counterexample: at a version congruent to 255 modulo 256 the upper
bound of the `TxnWrite` prefix scan wraps below the lower bound and `commit`
fails with an internal error instead of deleting the journal entry as
claimed. -/
theorem C7_commit_cex :
    mvccCommit ⟨255, []⟩ [((MvccKey.TxnWrite 255 [10]).encode, [])] =
      .error .Internal ∧
    ([((MvccKey.TxnWrite 255 [10]).encode, [])] : Store).filter
      (fun kv =>
        match decodeMvccKey kv.1 with
        | some (.TxnWrite w _) => decide (w ≠ 255)
        | some (.TxnActive w) => decide (w ≠ 255)
        | _ => true) = [] :=
  ⟨rfl, rfl⟩

/-- C8: for every sequence of `set`/`delete` operations applied to a fresh
disk engine, replaying the resulting log with `build_keydir` — inserting
`(offset + 8 + key_len, value_len)` per record and removing the key per
tombstone, in log order — reconstructs exactly the keydir that was maintained
incrementally, so a closed and reopened engine observes the state at close. -/
theorem C8_recovery {ops : List (Bytes × Option Bytes)}
    (hops : ∀ op ∈ ops, op.1.length < 2 ^ 32 ∧ (op.2.getD []).length < 2 ^ 31) :
    buildKeydir (applyOps emptyDisk ops).log = .ok (applyOps emptyDisk ops).keydir := by
  obtain ⟨hlog, hkd⟩ := applyOps_log emptyDisk ops
  rw [hlog, hkd]
  have hops' : ∀ op ∈ ops, op.1.length < 2 ^ 32 ∧
      ∀ v, op.2 = some v → v.length < 2 ^ 31 := by
    intro op hop
    refine ⟨(hops op hop).1, ?_⟩
    intro v hv
    have h2 := (hops op hop).2
    rw [hv] at h2
    exact h2
  exact buildKeydirAux_app ops emptyDisk.log emptyDisk.keydir hops'

/-- C8 witness: two overwrites of one key followed by a set and a delete of
another; rebuilding the keydir from the log gives the incremental keydir. -/
theorem C8_recovery_witness :
    buildKeydir (applyOps emptyDisk
      [([3], some [7]), ([3], some [8]), ([4], some [9]), ([4], none)]).log =
    .ok (applyOps emptyDisk
      [([3], some [7]), ([3], some [8]), ([4], some [9]), ([4], none)]).keydir :=
  C8_recovery (by decide)

/-- C9: `compact` rewrites exactly the live keydir entries (no tombstones, no
superseded records) into a fresh log, and a full-range scan afterwards yields
the same pairs, byte for byte and in the same ascending key order, as
before. -/
theorem C9_compact {e : DiskEngine} (hs : sortedKeys e.keydir)
    (hread : ∀ kv ∈ e.keydir, kv.2.1 + kv.2.2 ≤ e.log.length) :
    ∃ e', compact e = .ok e' ∧
      e'.log = logOf (e.keydir.map
        (fun kv => (kv.1, some ((e.log.drop kv.2.1).take kv.2.2)))) ∧
      scanAll e' = scanAll e :=
  compact_scanAll hs hread

/-- C9 witness: compaction of an engine holding an overwritten key and a live
key preserves the full-range scan. -/
theorem C9_compact_witness :
    ∃ e', compact (applyOps emptyDisk
        [([3], some [7]), ([3], some [8]), ([4], some [9])]) = .ok e' ∧
      e'.log = logOf ((applyOps emptyDisk
          [([3], some [7]), ([3], some [8]), ([4], some [9])]).keydir.map
        (fun kv => (kv.1, some (((applyOps emptyDisk
          [([3], some [7]), ([3], some [8]), ([4], some [9])]).log.drop
            kv.2.1).take kv.2.2)))) ∧
      scanAll e' = scanAll (applyOps emptyDisk
        [([3], some [7]), ([3], some [8]), ([4], some [9])]) :=
  C9_compact (by decide) (by decide)
